import Mathlib

/-!
Verification of the calcu-rs equality-saturation engine against its
natural-language specification.

The Rust sources under src/ are embedded shallowly:

* usize arithmetic is modelled as Nat, with explicit saturation
  (saturating_add) or reduction mod 2 ^ 64 at the places where the source
  wraps in release mode;
* panics and fallible lookups become Option / Except;
* IndexSet / IndexMap / HashMap become association lists with the same
  observable lookup and insertion-order behaviour;
* the iteration structure of each routine is kept.
-/

namespace CalcuRs

/-! ## usize model -/

/-- Number of values of usize (64-bit targets). -/
def USIZE : Nat := 2 ^ 64

/-- Largest usize value. -/
def USIZE_MAX : Nat := USIZE - 1

/-- Model of usize::saturating_add. -/
def satAdd (a b : Nat) : Nat := min (a + b) USIZE_MAX

/-! ## Node vocabulary (src/src/expression.rs) -/

/- The ID new-type of src/src/expression.rs is a u32 used as an index into
node tables; it is modelled throughout this file as a plain Nat (the debug
assertion that it fits in u32 is irrelevant to the claims). -/

/-- Minimal model of the Rational payload: the claims only ever compare
rationals for equality, so a numerator / denominator pair suffices. -/
structure Rational where
  num : Int
  den : Nat
deriving DecidableEq, Repr

def Rational.MINUS_ONE : Rational := ⟨-1, 1⟩

/-- The Node enum of src/src/expression.rs.  Var symbols are interned
indices into the symbol table, modelled as Nat. -/
inductive Node where
  | rational (r : Rational)
  | var (s : Nat)
  | undef
  | add (a b : Nat)
  | mul (a b : Nat)
  | pow (a b : Nat)
deriving DecidableEq, Repr

namespace Node

/-- Node::ids from src/src/expression.rs (the operand slice). -/
def ids : Node → List Nat
  | rational _ => []
  | var _ => []
  | undef => []
  | add a b => [a, b]
  | mul a b => [a, b]
  | pow a b => [a, b]

/-- Construct::map_operands specialised to Node (update every operand id
through the supplied function). -/
def mapOps (f : Nat → Nat) : Node → Node
  | rational r => rational r
  | var s => var s
  | undef => undef
  | add a b => add (f a) (f b)
  | mul a b => mul (f a) (f b)
  | pow a b => pow (f a) (f b)

/-- Construct::fold specialised to Node: fold over the operand ids with an
initial accumulator. -/
def fold (n : Node) (init : α) (f : α → Nat → α) : α :=
  n.ids.foldl f init

/-- The discriminant of std::mem::discriminant(Node): the variant tag only,
payloads ignored. -/
inductive Kind where
  | rational
  | var
  | undef
  | add
  | mul
  | pow
deriving DecidableEq, Repr

/-- Discriminant of a node (std::mem::discriminant). -/
def kind : Node → Kind
  | rational _ => .rational
  | var _ => .var
  | undef => .undef
  | add _ _ => .add
  | mul _ _ => .mul
  | pow _ _ => .pow

end Node

/-! ## Cost functions (src/src/egraph/run.rs, AstSize and AstDepth) -/

/-- AstSize::cost: fold over the operands with usize saturating_add,
starting from 1.  The child-cost accessor returns (Cost, Node) in the
source; only the cost component is read, so the accessor is modelled as
Nat → Nat. -/
def astSizeCost (n : Node) (costs : Nat → Nat) : Nat :=
  n.fold 1 (fun sum id => satAdd sum (costs id))

/-- AstDepth::cost: 1 + fold of max over the child costs.  The leading
addition is a plain usize +, which wraps mod 2 ^ 64 in release mode (and
panics in debug); it is not saturating. -/
def astDepthCost (n : Node) (costs : Nat → Nat) : Nat :=
  (1 + n.fold 0 (fun m id => Nat.max m (costs id))) % USIZE

/-- Folding saturating addition from a seed below the saturation point
computes the saturated total. -/
theorem foldl_satAdd_eq (cs : List Nat) :
    ∀ x, x ≤ USIZE_MAX →
      cs.foldl satAdd x = min (x + cs.sum) USIZE_MAX := by
  induction cs with
  | nil => intro x hx; simp [Nat.min_eq_left hx]
  | cons c cs ih =>
    intro x hx
    simp only [List.foldl_cons, List.sum_cons]
    rw [ih (satAdd x c) (Nat.min_le_right _ _)]
    unfold satAdd
    rcases Nat.le_total (x + c) USIZE_MAX with h | h
    · rw [Nat.min_eq_left h, Nat.add_assoc]
    · rw [Nat.min_eq_right h]
      have h2 : USIZE_MAX ≤ x + c + cs.sum := le_trans h (Nat.le_add_right _ _)
      have h3 : USIZE_MAX ≤ x + (c + cs.sum) := by omega
      rw [Nat.min_eq_right (Nat.le_add_right _ _), Nat.min_eq_right h3]

/-- Helper: the max fold over the operand list. -/
def maxChildCost (n : Node) (costs : Nat → Nat) : Nat :=
  n.fold 0 (fun m id => Nat.max m (costs id))

/-- C1 counterexample: with both children costing usize::MAX, AstDepth's
1 + max wraps around to 0 instead of saturating, contradicting the claim
that neither cost computation wraps when child costs are near usize::MAX. -/
theorem C1_counterexample :
    astDepthCost (Node.add 0 1) (fun _ => USIZE_MAX) = 0 ∧
    (0 : Nat) ≠ 1 + USIZE_MAX := by
  constructor
  · rfl
  · intro h
    simp [USIZE_MAX, USIZE] at h

/-- C1 (amended): AstSize computes 1 plus the children's cost sum with
saturating arithmetic and never overflows, but AstDepth computes
1 + max child cost with a plain (wrapping) addition: the result is
1 + max whenever max < usize::MAX, and wraps to 0 when max = usize::MAX. -/
theorem C1_astSize_saturates_astDepth_wraps (n : Node) (costs : Nat → Nat) :
    astSizeCost n costs = min (1 + (n.ids.map costs).sum) USIZE_MAX ∧
    (maxChildCost n costs < USIZE_MAX →
      astDepthCost n costs = 1 + maxChildCost n costs) ∧
    (maxChildCost n costs = USIZE_MAX →
      astDepthCost n costs = 0) := by
  refine ⟨?_, ?_, ?_⟩
  · unfold astSizeCost Node.fold
    rw [show (fun sum id => satAdd sum (costs id)) =
          (fun sum id => satAdd sum (costs id)) from rfl]
    have : n.ids.foldl (fun sum id => satAdd sum (costs id)) 1 =
        (n.ids.map costs).foldl satAdd 1 := by
      rw [List.foldl_map]
    rw [this, foldl_satAdd_eq _ 1 (by unfold USIZE_MAX USIZE; omega)]
  · intro h
    unfold astDepthCost
    have hm : 1 + maxChildCost n costs < USIZE := by
      unfold USIZE_MAX at h; omega
    unfold maxChildCost at hm ⊢
    exact Nat.mod_eq_of_lt hm
  · intro h
    unfold astDepthCost
    unfold maxChildCost at h
    rw [h]
    show (1 + USIZE_MAX) % USIZE = 0
    unfold USIZE_MAX USIZE
    norm_num

/-- C1 witness: the amended theorem evaluated at a concrete node whose two
children cost 2 and 3. -/
theorem C1_witness :
    astSizeCost (Node.add 0 1) (fun id => id + 2) = 6 ∧
    astDepthCost (Node.add 0 1) (fun id => id + 2) = 4 := by
  have h := C1_astSize_saturates_astDepth_wraps (Node.add 0 1) (fun id => id + 2)
  refine ⟨?_, ?_⟩
  · rw [h.1]; decide
  · rw [h.2.1 (by decide)]; decide

/-! ## IndexSet model -/

/-- IndexSet::insert_full over a list: return the index of the first equal
element if present, otherwise append the element and return its fresh
index. -/
def insertFull [DecidableEq α] (l : List α) (a : α) : List α × Nat :=
  match l.findIdx? (fun b => decide (b = a)) with
  | some i => (l, i)
  | none => (l ++ [a], l.length)

theorem findIdx?_append_self [DecidableEq α] (l : List α) (a : α)
    (h : l.findIdx? (fun b => decide (b = a)) = none) :
    (l ++ [a]).findIdx? (fun b => decide (b = a)) = some l.length := by
  rw [List.findIdx?_append, h]
  simp

/-- Re-inserting an element just inserted finds it at the same index. -/
theorem insertFull_insertFull [DecidableEq α] (l : List α) (a : α) :
    insertFull (insertFull l a).1 a = insertFull l a := by
  unfold insertFull
  cases h : l.findIdx? (fun b => decide (b = a)) with
  | some i => simp [h]
  | none => simp [h, findIdx?_append_self l a h]

/-! ## ExprContext hash-consing (src/src/expression.rs) -/

/-- ExprContext::sort_ids: Add and Mul sort their two operand ids ascending
(sort_unstable on an [Nat; 2]); Pow and the atoms are left untouched. -/
def sortIds : Node → Node
  | .add a b => if b < a then .add b a else .add a b
  | .mul a b => if b < a then .mul b a else .mul a b
  | n => n

/-- ExprContext::insert: sort the operand pair, then hash-cons the node into
the context's IndexSet, returning its id.  The context is modelled by its
node list (insertion order = id order). -/
def ctxInsert (nodes : List Node) (n : Node) : List Node × Nat :=
  insertFull nodes (sortIds n)

theorem sortIds_add_comm (a b : Nat) :
    sortIds (.add a b) = sortIds (.add b a) := by
  show (if b < a then Node.add b a else Node.add a b) =
    (if a < b then Node.add a b else Node.add b a)
  rcases Nat.lt_trichotomy a b with h | h | h
  · rw [if_neg (show ¬b < a by omega), if_pos h]
  · subst h; rfl
  · rw [if_pos h, if_neg (show ¬a < b by omega)]

theorem sortIds_mul_comm (a b : Nat) :
    sortIds (.mul a b) = sortIds (.mul b a) := by
  show (if b < a then Node.mul b a else Node.mul a b) =
    (if a < b then Node.mul a b else Node.mul b a)
  rcases Nat.lt_trichotomy a b with h | h | h
  · rw [if_neg (show ¬b < a by omega), if_pos h]
  · subst h; rfl
  · rw [if_pos h, if_neg (show ¬a < b by omega)]

/-- C9: ExprContext::insert sorts the operand pair of Add and Mul nodes, so
inserting Add([a,b]) and Add([b,a]) (or Mul([a,b]) and Mul([b,a])) into the
same context yields the same id and the same context; Pow operands are not
sorted (witnessed by a context where Pow([0,1]) and Pow([1,0]) get distinct
ids); and inserting the same node twice yields the same id. -/
theorem C9_insert_add_mul_sorted (nodes : List Node) (a b : Nat) (n : Node) :
    ctxInsert nodes (.add a b) = ctxInsert nodes (.add b a) ∧
    ctxInsert nodes (.mul a b) = ctxInsert nodes (.mul b a) ∧
    (ctxInsert [Node.pow 0 1] (Node.pow 0 1)).2 = 0 ∧
    (ctxInsert [Node.pow 0 1] (Node.pow 1 0)).2 = 1 ∧
    ctxInsert (ctxInsert nodes n).1 n = ctxInsert nodes n := by
  refine ⟨?_, ?_, by decide, by decide, ?_⟩
  · unfold ctxInsert; rw [sortIds_add_comm]
  · unfold ctxInsert; rw [sortIds_mul_comm]
  · unfold ctxInsert; exact insertFull_insertFull nodes (sortIds n)

/-- C9 witness: the theorem applied at a concrete context. -/
theorem C9_witness :
    ctxInsert [Node.undef] (.add 3 2) = ctxInsert [Node.undef] (.add 2 3) ∧
    ctxInsert (ctxInsert [] (Node.mul 1 0)).1 (Node.mul 1 0) =
      ctxInsert [] (Node.mul 1 0) :=
  ⟨(C9_insert_add_mul_sorted [Node.undef] 3 2 Node.undef).1,
   (C9_insert_add_mul_sorted [] 1 0 (Node.mul 1 0)).2.2.2.2⟩

/-! ## Backoff scheduler (src/src/egraph/run.rs) -/

/-- RuleStats from src/src/egraph/run.rs. -/
structure RuleStats where
  timesApplied : Nat
  bannedUntil : Nat
  timesBanned : Nat
  matchLimit : Nat
  banLength : Nat
deriving DecidableEq, Repr

/-- BackoffScheduler::can_stop: collect the rules whose banned_until lies
strictly beyond this iteration; if there are none, allow stopping;
otherwise subtract delta = (minimal banned_until) - iteration from every
banned rule's banned_until and refuse.  The scheduler's IndexMap of
per-rule stats is modelled by its value list in order (the rule names are
irrelevant to this logic). -/
def canStop (stats : List RuleStats) (iteration : Nat) :
    Bool × List RuleStats :=
  match ((stats.filter (fun s => decide (iteration < s.bannedUntil))).map
      (fun s => s.bannedUntil)).min? with
  | none => (true, stats)
  | some minBan =>
    (false,
     stats.map (fun s =>
       if iteration < s.bannedUntil
       then { s with bannedUntil := s.bannedUntil - (minBan - iteration) }
       else s))

/-- C4: can_stop answers true exactly when no rule is banned beyond the
current iteration; otherwise it answers false and fast-forwards every
banned rule's banned_until down by delta = min banned_until - iteration,
unbanning at least one rule exactly now while rules with longer bans keep
a positive remaining ban shortened by the same delta. -/
theorem C4_canStop_fast_forward (stats : List RuleStats) (it : Nat) :
    ((canStop stats it).1 = true ↔ ∀ s ∈ stats, s.bannedUntil ≤ it) ∧
    (∀ m,
      ((stats.filter (fun s => decide (it < s.bannedUntil))).map
          (fun s => s.bannedUntil)).min? = some m →
      (canStop stats it).1 = false ∧
      (canStop stats it).2 = stats.map (fun s =>
        if it < s.bannedUntil
        then { s with bannedUntil := s.bannedUntil - (m - it) }
        else s) ∧
      (∃ s ∈ stats, it < s.bannedUntil ∧ s.bannedUntil - (m - it) = it) ∧
      (∀ s ∈ stats, it < s.bannedUntil → m < s.bannedUntil →
        it < s.bannedUntil - (m - it))) := by
  constructor
  · constructor
    · intro h s hs
      by_contra hgt
      push_neg at hgt
      have hmem : s ∈ stats.filter (fun s => decide (it < s.bannedUntil)) :=
        List.mem_filter.mpr ⟨hs, by simpa using hgt⟩
      have hne : (stats.filter (fun s => decide (it < s.bannedUntil))).map
          (fun s => s.bannedUntil) ≠ [] := by
        simp only [ne_eq, List.map_eq_nil_iff]
        intro hnil
        rw [hnil] at hmem
        exact List.not_mem_nil s hmem
      obtain ⟨m, hm⟩ := Option.ne_none_iff_exists'.mp
        (mt List.min?_eq_none_iff.mp hne)
      unfold canStop at h
      rw [hm] at h
      simp at h
    · intro h
      have hnil : stats.filter (fun s => decide (it < s.bannedUntil)) = [] := by
        rw [List.filter_eq_nil_iff]
        intro s hs
        simpa using Nat.not_lt.mpr (h s hs)
      unfold canStop
      rw [hnil]
      rfl
  · intro m hm
    have hbool : (canStop stats it).1 = false := by
      unfold canStop; rw [hm]
    have hlist : (canStop stats it).2 = stats.map (fun s =>
        if it < s.bannedUntil
        then { s with bannedUntil := s.bannedUntil - (m - it) }
        else s) := by
      unfold canStop; rw [hm]
    refine ⟨hbool, hlist, ?_, ?_⟩
    · have hmem : m ∈ (stats.filter (fun s => decide (it < s.bannedUntil))).map
          (fun s => s.bannedUntil) := List.min?_mem min_choice hm
      obtain ⟨s, hsf, hsb⟩ := List.mem_map.mp hmem
      obtain ⟨hs, hlt⟩ := List.mem_filter.mp hsf
      refine ⟨s, hs, by simpa using hlt, ?_⟩
      have : it < s.bannedUntil := by simpa using hlt
      omega
    · intro s hs h1 h2
      omega

/-- C4 witness: two banned rules (until rounds 5 and 9) at iteration 3 are
fast-forwarded by delta = 2 to rounds 3 and 7. -/
theorem C4_witness :
    canStop [⟨0, 5, 0, 10, 5⟩, ⟨0, 9, 0, 10, 5⟩] 3 =
      (false, [⟨0, 3, 0, 10, 5⟩, ⟨0, 7, 0, 10, 5⟩]) := by
  have h := (C4_canStop_fast_forward [⟨0, 5, 0, 10, 5⟩, ⟨0, 9, 0, 10, 5⟩] 3).2
    5 (by decide)
  have h1 := h.1
  have h2 := h.2.1
  have : canStop [⟨0, 5, 0, 10, 5⟩, ⟨0, 9, 0, 10, 5⟩] 3 =
      ((canStop [⟨0, 5, 0, 10, 5⟩, ⟨0, 9, 0, 10, 5⟩] 3).1,
       (canStop [⟨0, 5, 0, 10, 5⟩, ⟨0, 9, 0, 10, 5⟩] 3).2) := rfl
  rw [this, h1, h2]
  decide

/-- BackoffScheduler::search_rewrite, acting on the stats entry of one rule
(rule_stats of its name).  The rewrite's search_with_limit call is
abstracted by searchFn, mapping the limit it is given to the per-eclass
substitution counts found.  Returns none where the source panics:
match_limit.checked_shl(times_banned as u32).unwrap() panics when the u32
cast of times_banned (wrapping mod 2 ^ 32) is 64 or more.  The shifts and
the addition wrap in release mode: the checked_shl value mod 2 ^ 64, the
plain shift of ban_length masks its shift amount mod 64 and wraps mod
2 ^ 64, and times_banned + 1, times_applied + 1, iteration + ban_length
wrap mod 2 ^ 64. -/
def searchRewrite (stats : RuleStats) (iteration : Nat)
    (searchFn : Nat → List Nat) : Option (RuleStats × List Nat) :=
  if iteration < stats.bannedUntil then
    some (stats, [])
  else if 64 ≤ stats.timesBanned % 2 ^ 32 then
    none
  else
    let threshold := stats.matchLimit * 2 ^ (stats.timesBanned % 2 ^ 32) % USIZE
    let found := searchFn (satAdd threshold 1)
    if threshold < found.sum then
      some ({ stats with
                timesBanned := (stats.timesBanned + 1) % USIZE,
                bannedUntil :=
                  (iteration +
                    stats.banLength * 2 ^ (stats.timesBanned % 64) % USIZE) %
                    USIZE },
            [])
    else
      some ({ stats with timesApplied := (stats.timesApplied + 1) % USIZE },
            found)

/-- C2: under the backoff scheduler, a rule whose search at round i yields
strictly more than match_limit << times_banned substitutions contributes an
empty match list at round i, is skipped without being searched through
every round j < i + (ban_length << times_banned), is searched again at
round i + (ban_length << times_banned), and both the effective match limit
and the effective ban length double.  The arithmetic hypotheses keep the
usize shifts and sums below 2 ^ 64, where the source would otherwise wrap
or panic. -/
theorem C2_backoff_ban (stats : RuleStats) (i : Nat)
    (searchFn : Nat → List Nat)
    (hactive : stats.bannedUntil ≤ i)
    (ht : stats.timesBanned < 63)
    (hL : stats.matchLimit * 2 ^ (stats.timesBanned + 1) < USIZE_MAX)
    (hB : stats.banLength * 2 ^ (stats.timesBanned + 1) < USIZE)
    (hi : i + stats.banLength * 2 ^ stats.timesBanned < USIZE)
    (hover : stats.matchLimit * 2 ^ stats.timesBanned <
      (searchFn (stats.matchLimit * 2 ^ stats.timesBanned + 1)).sum) :
    ∃ stats2,
      searchRewrite stats i searchFn = some (stats2, []) ∧
      stats2.timesBanned = stats.timesBanned + 1 ∧
      stats2.bannedUntil = i + stats.banLength * 2 ^ stats.timesBanned ∧
      stats2.matchLimit = stats.matchLimit ∧
      stats2.banLength = stats.banLength ∧
      stats2.timesApplied = stats.timesApplied ∧
      (∀ j, j < i + stats.banLength * 2 ^ stats.timesBanned →
        ∀ f2, searchRewrite stats2 j f2 = some (stats2, [])) ∧
      (∀ f2,
        (f2 (stats.matchLimit * 2 ^ (stats.timesBanned + 1) + 1)).sum ≤
            stats.matchLimit * 2 ^ (stats.timesBanned + 1) →
        searchRewrite stats2 (i + stats.banLength * 2 ^ stats.timesBanned)
            f2 =
          some ({ stats2 with
                    timesApplied := (stats2.timesApplied + 1) % USIZE },
                f2 (stats.matchLimit * 2 ^ (stats.timesBanned + 1) + 1))) ∧
      stats2.matchLimit * 2 ^ stats2.timesBanned =
        2 * (stats.matchLimit * 2 ^ stats.timesBanned) ∧
      stats2.banLength * 2 ^ stats2.timesBanned =
        2 * (stats.banLength * 2 ^ stats.timesBanned) := by
  have hUM : USIZE_MAX + 1 = USIZE := by unfold USIZE_MAX USIZE; omega
  have ht32 : stats.timesBanned % 2 ^ 32 = stats.timesBanned :=
    Nat.mod_eq_of_lt (by omega)
  have ht64 : stats.timesBanned % 64 = stats.timesBanned :=
    Nat.mod_eq_of_lt (by omega)
  have hLt : stats.matchLimit * 2 ^ stats.timesBanned < USIZE_MAX := by
    have h2 : stats.matchLimit * 2 ^ stats.timesBanned ≤
        stats.matchLimit * 2 ^ (stats.timesBanned + 1) :=
      Nat.mul_le_mul_left _ (Nat.pow_le_pow_right (by omega) (by omega))
    omega
  have hBt : stats.banLength * 2 ^ stats.timesBanned < USIZE := by
    have h2 : stats.banLength * 2 ^ stats.timesBanned ≤
        stats.banLength * 2 ^ (stats.timesBanned + 1) :=
      Nat.mul_le_mul_left _ (Nat.pow_le_pow_right (by omega) (by omega))
    omega
  have hthr : stats.matchLimit * 2 ^ (stats.timesBanned % 2 ^ 32) % USIZE =
      stats.matchLimit * 2 ^ stats.timesBanned := by
    rw [ht32]; exact Nat.mod_eq_of_lt (by omega)
  have hban : stats.banLength * 2 ^ (stats.timesBanned % 64) % USIZE =
      stats.banLength * 2 ^ stats.timesBanned := by
    rw [ht64]; exact Nat.mod_eq_of_lt hBt
  have hsat : satAdd (stats.matchLimit * 2 ^ stats.timesBanned) 1 =
      stats.matchLimit * 2 ^ stats.timesBanned + 1 := by
    unfold satAdd
    exact Nat.min_eq_left (by omega)
  refine ⟨{ stats with
              timesBanned := stats.timesBanned + 1,
              bannedUntil := i + stats.banLength * 2 ^ stats.timesBanned },
          ?_, rfl, rfl, rfl, rfl, rfl, ?_, ?_, ?_, ?_⟩
  · show searchRewrite stats i searchFn = _
    unfold searchRewrite
    rw [if_neg (show ¬i < stats.bannedUntil by omega),
        if_neg (show ¬64 ≤ stats.timesBanned % 2 ^ 32 by omega)]
    simp only [hthr, hsat]
    rw [if_pos hover]
    have h1 : (stats.timesBanned + 1) % USIZE = stats.timesBanned + 1 :=
      Nat.mod_eq_of_lt (by unfold USIZE; omega)
    rw [hban, h1, Nat.mod_eq_of_lt hi]
  · intro j hj f2
    unfold searchRewrite
    rw [if_pos (show j < _ by exact hj)]
  · intro f2 hf2
    unfold searchRewrite
    have ht32b : (stats.timesBanned + 1) % 2 ^ 32 = stats.timesBanned + 1 :=
      Nat.mod_eq_of_lt (by omega)
    rw [if_neg (show ¬i + stats.banLength * 2 ^ stats.timesBanned <
          i + stats.banLength * 2 ^ stats.timesBanned by omega),
        if_neg (show ¬64 ≤ (stats.timesBanned + 1) % 2 ^ 32 by
          rw [ht32b]; omega)]
    have hthr2 : stats.matchLimit * 2 ^ ((stats.timesBanned + 1) % 2 ^ 32) %
        USIZE = stats.matchLimit * 2 ^ (stats.timesBanned + 1) := by
      rw [ht32b]; exact Nat.mod_eq_of_lt (by omega)
    have hsat2 : satAdd (stats.matchLimit * 2 ^ (stats.timesBanned + 1)) 1 =
        stats.matchLimit * 2 ^ (stats.timesBanned + 1) + 1 := by
      unfold satAdd
      exact Nat.min_eq_left (by omega)
    simp only [hthr2, hsat2]
    rw [if_neg (show ¬stats.matchLimit * 2 ^ (stats.timesBanned + 1) <
          (f2 (stats.matchLimit * 2 ^ (stats.timesBanned + 1) + 1)).sum by
        omega)]
  · show stats.matchLimit * 2 ^ (stats.timesBanned + 1) = _
    ring
  · show stats.banLength * 2 ^ (stats.timesBanned + 1) = _
    ring

/-- C2 witness: a rule with match limit 2 and ban length 1, never banned
before, whose search finds 3 substitutions at round 0: it is banned for
round 0, skipped there, and searched again at round 1. -/
theorem C2_witness :
    ∃ stats2,
      searchRewrite ⟨0, 0, 0, 2, 1⟩ 0 (fun _ => [3]) = some (stats2, []) ∧
      stats2.bannedUntil = 1 ∧
      stats2.timesBanned = 1 := by
  obtain ⟨s2, h1, h2, h3, -, -, -, -, -, -, -⟩ :=
    C2_backoff_ban ⟨0, 0, 0, 2, 1⟩ 0 (fun _ => [3]) (by decide) (by decide)
      (by decide) (by decide) (by decide) (by decide)
  exact ⟨s2, h1, by rw [h3]; rfl, by rw [h2]⟩

/-! ## Extractor (src/src/egraph/run.rs) -/

/-- The cmp helper of src/src/egraph/run.rs comparing optional costs:
None is high; two Some costs compare by partial_cmp (total for the usize
costs used here, so compare never panics). -/
def cmpCost {α : Type} [LinearOrder α] : Option α → Option α → Ordering
  | none, none => .eq
  | none, some _ => .gt
  | some _, none => .lt
  | some a, some b => compare a b

/-- An equivalence class: its id plus member nodes (the EClass fields the
extractor reads). -/
structure EClass where
  id : Nat
  nodes : List Node
deriving DecidableEq, Repr

/-- Iterator::min_by semantics: the first element that is minimal under the
comparison (later elements replace the accumulator only when strictly
less). -/
def minBy (cmp : α → α → Ordering) : List α → Option α
  | [] => none
  | x :: xs =>
    some (xs.foldl (fun best y => if cmp y best = .lt then y else best) x)

/-- HashMap::insert modelled on an association list: replace an existing
binding for the key or append a fresh one. -/
def insertA (m : List (Nat × Nat × Node)) (k : Nat) (v : Nat × Node) :
    List (Nat × Nat × Node) :=
  if (m.lookup k).isSome then
    m.map (fun p => if p.1 = k then (k, v) else p)
  else m ++ [(k, v)]

/-- Extractor::node_total_cost: Some cost when every operand's canonical
class already has a cost, None otherwise.  The union-find canonical-id map
of the egraph is the abstract canon function.  The cost function receives
the (cost, node) accessor; the source only calls the accessor on operands
that passed the has_cost check, so the default value is unreachable. -/
def nodeTotalCost (canon : Nat → Nat)
    (costFn : Node → (Nat → Nat × Node) → Nat)
    (costs : List (Nat × Nat × Node)) (n : Node) : Option Nat :=
  if n.ids.all (fun id => (costs.lookup (canon id)).isSome) then
    some (costFn n (fun id => (costs.lookup (canon id)).getD (0, Node.undef)))
  else none

/-- Extractor::make_pass: pick the first cost-minimal (under cmpCost)
member node of the class; panic (error) if the class has no nodes; yield
Some (cost, node) when the chosen node's cost is known. -/
def makePass (canon : Nat → Nat) (costFn : Node → (Nat → Nat × Node) → Nat)
    (costs : List (Nat × Nat × Node)) (eclass : EClass) :
    Except String (Option (Nat × Node)) :=
  match minBy (fun a b => cmpCost a.1 b.1)
      (eclass.nodes.map (fun n => (nodeTotalCost canon costFn costs n, n))) with
  | none => .error "cannot extract, eclass is empty"
  | some (cost, node) => .ok (cost.map (fun c => (c, node)))

/-- The cost-map update performed by find_costs for one class: a class's
entry is created when it first obtains a cost and replaced when a strictly
cheaper one shows up; otherwise the map and the did_something flag are
unchanged. -/
def updateCosts (costs : List (Nat × Nat × Node)) (cid : Nat)
    (pass : Option (Nat × Node)) (did : Bool) :
    List (Nat × Nat × Node) × Bool :=
  match costs.lookup cid, pass with
  | none, some new => (insertA costs cid new, true)
  | some old, some new =>
    if new.1 < old.1 then (insertA costs cid new, true) else (costs, did)
  | _, _ => (costs, did)

/-- One pass of the Extractor::find_costs loop over all classes, threading
the cost map and the did_something flag. -/
def findCostsPass (canon : Nat → Nat)
    (costFn : Node → (Nat → Nat × Node) → Nat) :
    List EClass → List (Nat × Nat × Node) → Bool →
    Except String (List (Nat × Nat × Node) × Bool)
  | [], costs, did => .ok (costs, did)
  | c :: cs, costs, did =>
    match makePass canon costFn costs c with
    | .error e => .error e
    | .ok pass =>
      findCostsPass canon costFn cs (updateCosts costs c.id pass did).1
        (updateCosts costs c.id pass did).2

/-- Extractor::find_costs: iterate passes while something improved.  The
source's while loop carries no bound; explicit fuel truncates it, which
only ever stops the relaxation early. -/
def findCosts (canon : Nat → Nat)
    (costFn : Node → (Nat → Nat × Node) → Nat) (classes : List EClass) :
    Nat → List (Nat × Nat × Node) →
    Except String (List (Nat × Nat × Node))
  | 0, costs => .ok costs
  | fuel + 1, costs =>
    match findCostsPass canon costFn classes costs false with
    | .error e => .error e
    | .ok (costs2, did) =>
      if did then findCosts canon costFn classes fuel costs2 else .ok costs2

/-- The class ids logged as warnings at the end of find_costs: those that
never obtained a cost. -/
def uncostedClasses (classes : List EClass)
    (m : List (Nat × Nat × Node)) : List Nat :=
  (classes.filter (fun c => (m.lookup c.id).isNone)).map (fun c => c.id)

/-- A class id can obtain a cost under the find_costs relaxation only by
containing a node all of whose operands' canonical classes can. -/
inductive Costable (classes : List EClass) (canon : Nat → Nat) : Nat → Prop
  | intro (c : EClass) (hc : c ∈ classes) (n : Node) (hn : n ∈ c.nodes)
      (hops : ∀ id ∈ n.ids, Costable classes canon (canon id)) :
      Costable classes canon c.id

theorem minBy_mem (cmp : α → α → Ordering) (l : List α) (x : α)
    (h : minBy cmp l = some x) : x ∈ l := by
  match l with
  | [] => simp [minBy] at h
  | y :: ys =>
    simp only [minBy, Option.some.injEq] at h
    subst h
    suffices h : ∀ (z : α) (zs : List α),
        zs.foldl (fun best w => if cmp w best = .lt then w else best) z ∈
          z :: zs by
      exact h y ys
    intro z zs
    induction zs generalizing z with
    | nil => simp
    | cons w ws ih =>
      simp only [List.foldl_cons]
      rcases List.mem_cons.mp (ih (if cmp w z = .lt then w else z)) with h | h
      · rw [h]
        split <;> simp
      · simp [h]

theorem lookup_isSome_insertA (m : List (Nat × Nat × Node)) (k : Nat)
    (v : Nat × Node) (j : Nat)
    (h : ((insertA m k v).lookup j).isSome) :
    j = k ∨ (m.lookup j).isSome := by
  unfold insertA at h
  split at h
  · rw [List.lookup_isSome_iff] at h
    obtain ⟨p, hp, hpe⟩ := h
    obtain ⟨q, hq, rfl⟩ := List.mem_map.mp hp
    by_cases hqk : q.1 = k
    · left
      rw [if_pos hqk] at hpe
      simpa using hpe
    · right
      rw [if_neg hqk] at hpe
      rw [List.lookup_isSome_iff]
      exact ⟨q, hq, hpe⟩
  · rw [List.lookup_isSome_iff] at h
    obtain ⟨p, hp, hpe⟩ := h
    rcases List.mem_append.mp hp with hm | hone
    · right
      rw [List.lookup_isSome_iff]
      exact ⟨p, hm, hpe⟩
    · left
      have hpk : p = (k, v) := by simpa using hone
      subst hpk
      simpa using hpe

theorem updateCosts_none_pass (costs : List (Nat × Nat × Node)) (cid : Nat)
    (did : Bool) : updateCosts costs cid none did = (costs, did) := by
  unfold updateCosts
  cases hlk : costs.lookup cid <;> rfl

theorem updateCosts_fresh (costs : List (Nat × Nat × Node)) (cid : Nat)
    (new : Nat × Node) (did : Bool) (hlk : costs.lookup cid = none) :
    updateCosts costs cid (some new) did = (insertA costs cid new, true) := by
  unfold updateCosts
  rw [hlk]

theorem updateCosts_improve (costs : List (Nat × Nat × Node)) (cid : Nat)
    (new old : Nat × Node) (did : Bool)
    (hlk : costs.lookup cid = some old) :
    updateCosts costs cid (some new) did =
      if new.1 < old.1 then (insertA costs cid new, true) else (costs, did) := by
  unfold updateCosts
  rw [hlk]

/-- New keys appearing through updateCosts are exactly the class id, and
only when the pass produced a cost. -/
theorem lookup_isSome_updateCosts (costs : List (Nat × Nat × Node))
    (cid : Nat) (pass : Option (Nat × Node)) (did : Bool) (j : Nat)
    (h : (((updateCosts costs cid pass did).1).lookup j).isSome) :
    (j = cid ∧ pass.isSome) ∨ (costs.lookup j).isSome := by
  cases pass with
  | none =>
    rw [updateCosts_none_pass] at h
    exact Or.inr h
  | some new =>
    cases hlk : costs.lookup cid with
    | none =>
      rw [updateCosts_fresh costs cid new did hlk] at h
      rcases lookup_isSome_insertA costs cid new j h with hj | hj
      · exact Or.inl ⟨hj, rfl⟩
      · exact Or.inr hj
    | some old =>
      rw [updateCosts_improve costs cid new old did hlk] at h
      split at h
      · rcases lookup_isSome_insertA costs cid new j h with hj | hj
        · exact Or.inl ⟨hj, rfl⟩
        · exact Or.inr hj
      · exact Or.inr h

/-- A node whose total cost is known certifies its class costable, given
that every key already in the map is costable. -/
theorem costable_of_nodeTotalCost (classes : List EClass) (canon : Nat → Nat)
    (costFn : Node → (Nat → Nat × Node) → Nat)
    (costs : List (Nat × Nat × Node))
    (hinv : ∀ j, ((costs.lookup j).isSome) → Costable classes canon j)
    (c : EClass) (hc : c ∈ classes) (n : Node) (hn : n ∈ c.nodes)
    (hcost : (nodeTotalCost canon costFn costs n).isSome) :
    Costable classes canon c.id := by
  unfold nodeTotalCost at hcost
  split at hcost
  · rename_i hall
    refine Costable.intro c hc n hn ?_
    intro id hid
    have hs := List.all_eq_true.mp hall id hid
    exact hinv (canon id) (by simpa using hs)
  · simp at hcost

/-- A successful make_pass that yields a cost exhibits a member node whose
total cost is known. -/
theorem makePass_some_mem (canon : Nat → Nat)
    (costFn : Node → (Nat → Nat × Node) → Nat)
    (costs : List (Nat × Nat × Node)) (eclass : EClass) (new : Nat × Node)
    (h : makePass canon costFn costs eclass = .ok (some new)) :
    ∃ n ∈ eclass.nodes, nodeTotalCost canon costFn costs n = some new.1 := by
  unfold makePass at h
  cases hmin : minBy (fun a b => cmpCost a.1 b.1)
      (eclass.nodes.map (fun n => (nodeTotalCost canon costFn costs n, n)))
      with
  | none => rw [hmin] at h; cases h
  | some p =>
    rw [hmin] at h
    obtain ⟨cost, node⟩ := p
    have h2 : cost.map (fun cc => (cc, node)) = some new := Except.ok.inj h
    cases cost with
    | none => simp at h2
    | some cc =>
      simp only [Option.map_some'] at h2
      have hmem2 := minBy_mem _ _ _ hmin
      obtain ⟨nn, hnn, heq⟩ := List.mem_map.mp hmem2
      refine ⟨nn, hnn, ?_⟩
      have h3 := congrArg Prod.fst heq
      simp only at h3
      have h4 : new = (cc, node) := (Option.some.inj h2).symm
      rw [h3, h4]

theorem findCostsPass_inv (classes : List EClass) (canon : Nat → Nat)
    (costFn : Node → (Nat → Nat × Node) → Nat) :
    ∀ (cs : List EClass) (costs : List (Nat × Nat × Node)) (did : Bool)
      (costs2 : List (Nat × Nat × Node)) (did2 : Bool),
      findCostsPass canon costFn cs costs did = .ok (costs2, did2) →
      (∀ c ∈ cs, c ∈ classes) →
      (∀ j, ((costs.lookup j).isSome) → Costable classes canon j) →
      (∀ j, ((costs2.lookup j).isSome) → Costable classes canon j) := by
  intro cs
  induction cs with
  | nil =>
    intro costs did costs2 did2 h _ hinv
    unfold findCostsPass at h
    cases h
    exact hinv
  | cons c cs ih =>
    intro costs did costs2 did2 h hmem hinv
    unfold findCostsPass at h
    cases hpass : makePass canon costFn costs c with
    | error e => rw [hpass] at h; cases h
    | ok pass =>
      rw [hpass] at h
      refine ih (updateCosts costs c.id pass did).1
        (updateCosts costs c.id pass did).2 costs2 did2 h
        (fun x hx => hmem x (by simp [hx])) ?_
      intro j hj
      rcases lookup_isSome_updateCosts costs c.id pass did j hj with
        ⟨hjc, hps⟩ | hjs
      · subst hjc
        obtain ⟨new, hnew⟩ := Option.isSome_iff_exists.mp hps
        subst hnew
        obtain ⟨nn, hnn, hcost⟩ :=
          makePass_some_mem canon costFn costs c new hpass
        exact costable_of_nodeTotalCost classes canon costFn costs hinv c
          (hmem c (by simp)) nn hnn (by rw [hcost]; rfl)
      · exact hinv j hjs

theorem findCosts_inv (classes : List EClass) (canon : Nat → Nat)
    (costFn : Node → (Nat → Nat × Node) → Nat) :
    ∀ (fuel : Nat) (costs m : List (Nat × Nat × Node)),
      findCosts canon costFn classes fuel costs = .ok m →
      (∀ j, ((costs.lookup j).isSome) → Costable classes canon j) →
      (∀ j, ((m.lookup j).isSome) → Costable classes canon j) := by
  intro fuel
  induction fuel with
  | zero =>
    intro costs m h hinv
    unfold findCosts at h
    cases h
    exact hinv
  | succ fuel ih =>
    intro costs m h hinv
    unfold findCosts at h
    cases hp : findCostsPass canon costFn classes costs false with
    | error e => rw [hp] at h; cases h
    | ok p =>
      rw [hp] at h
      obtain ⟨costs2, did⟩ := p
      have hinv2 := findCostsPass_inv classes canon costFn classes costs false
        costs2 did hp (fun c hc => hc) hinv
      cases did with
      | true => exact ih costs2 m h hinv2
      | false =>
        have h2 : costs2 = m := by
          have h3 : Except.ok (ε := String) costs2 = .ok m := h
          exact Except.ok.inj h3
        subst h2
        exact hinv2

/-- A pass over classes with nonempty node sets never panics. -/
theorem findCostsPass_ok (canon : Nat → Nat)
    (costFn : Node → (Nat → Nat × Node) → Nat) :
    ∀ (cs : List EClass) (costs : List (Nat × Nat × Node)) (did : Bool),
      (∀ c ∈ cs, c.nodes ≠ []) →
      ∃ out, findCostsPass canon costFn cs costs did = .ok out := by
  intro cs
  induction cs with
  | nil => intro costs did _; exact ⟨(costs, did), rfl⟩
  | cons c cs ih =>
    intro costs did hne
    have hok : ∃ pass, makePass canon costFn costs c = .ok pass := by
      unfold makePass
      cases hn : c.nodes with
      | nil => exact absurd hn (hne c (by simp))
      | cons n ns =>
        simp only [hn, List.map_cons, minBy]
        exact ⟨_, rfl⟩
    obtain ⟨pass, hpass⟩ := hok
    unfold findCostsPass
    rw [hpass]
    exact ih (updateCosts costs c.id pass did).1
      (updateCosts costs c.id pass did).2 (fun x hx => hne x (by simp [hx]))

theorem findCosts_ok (canon : Nat → Nat)
    (costFn : Node → (Nat → Nat × Node) → Nat) (classes : List EClass)
    (hne : ∀ c ∈ classes, c.nodes ≠ []) :
    ∀ (fuel : Nat) (costs : List (Nat × Nat × Node)),
      ∃ m, findCosts canon costFn classes fuel costs = .ok m := by
  intro fuel
  induction fuel with
  | zero => intro costs; exact ⟨costs, rfl⟩
  | succ fuel ih =>
    intro costs
    obtain ⟨⟨costs2, did⟩, hp⟩ :=
      findCostsPass_ok canon costFn classes costs false hne
    unfold findCosts
    rw [hp]
    cases did with
    | true => exact ih costs2
    | false => exact ⟨costs2, by simp⟩

/-- C6: a class that is not costable (no member node whose transitive
operand classes can all obtain costs) is absent from the extractor's cost
map after the relaxation and appears among the warned uncosted classes,
while construction itself cannot fail when every class is nonempty; a
class with an empty node set makes make_pass panic; and an unknown (None)
cost always compares strictly greater than any known cost. -/
theorem C6_uncostable_absent (classes : List EClass) (canon : Nat → Nat)
    (costFn : Node → (Nat → Nat × Node) → Nat) (fuel : Nat) {β : Type}
    [LinearOrder β] (b : β) :
    (∀ m, findCosts canon costFn classes fuel [] = .ok m →
      (∀ cid, ¬ Costable classes canon cid → m.lookup cid = none) ∧
      (∀ c ∈ classes, ¬ Costable classes canon c.id →
        c.id ∈ uncostedClasses classes m)) ∧
    ((∀ c ∈ classes, c.nodes ≠ []) →
      ∃ m, findCosts canon costFn classes fuel [] = .ok m) ∧
    (∀ c : EClass, c.nodes = [] → ∀ costs,
      makePass canon costFn costs c = .error "cannot extract, eclass is empty") ∧
    cmpCost none (some b) = .gt ∧
    cmpCost (some b) none = .lt ∧
    cmpCost (none : Option β) none = .eq := by
  refine ⟨?_, ?_, ?_, rfl, rfl, rfl⟩
  · intro m hm
    have hinv := findCosts_inv classes canon costFn fuel [] m hm
      (by intro j hj; simp [List.lookup] at hj)
    constructor
    · intro cid hnc
      cases hlk : m.lookup cid with
      | none => rfl
      | some v => exact absurd (hinv cid (by simp [hlk])) hnc
    · intro c hc hnc
      have hnone : m.lookup c.id = none := by
        cases hlk : m.lookup c.id with
        | none => rfl
        | some v => exact absurd (hinv c.id (by simp [hlk])) hnc
      unfold uncostedClasses
      exact List.mem_map.mpr ⟨c, List.mem_filter.mpr
        ⟨hc, by simp [hnone]⟩, rfl⟩
  · intro hne
    exact findCosts_ok canon costFn classes hne fuel []
  · intro c hc costs
    unfold makePass
    rw [hc]
    rfl

/-- C6 witness: a two-class graph where class 1 is defined only through
itself (its sole node Add(1,1) refers back to class 1): after the fixpoint
it has no cost and is reported, while class 0 is costed; panics and None
comparisons observed at concrete inputs through the theorem. -/
theorem C6_witness :
    (findCosts id (fun n costs => astSizeCost n (fun id => (costs id).1))
        [⟨0, [Node.undef]⟩, ⟨1, [Node.add 1 1]⟩] 3 []).toOption.bind
      (fun m => m.lookup 1) = none ∧
    makePass id (fun n costs => astSizeCost n (fun id => (costs id).1)) []
      ⟨7, []⟩ = .error "cannot extract, eclass is empty" ∧
    cmpCost none (some (5 : Nat)) = .gt := by
  have hnc : ¬ Costable [⟨0, [Node.undef]⟩, ⟨1, [Node.add 1 1]⟩] id 1 := by
    intro h
    have hgen : ∀ cid,
        Costable [⟨0, [Node.undef]⟩, ⟨1, [Node.add 1 1]⟩] id cid →
        cid = 1 → False := by
      intro cid hcost
      induction hcost with
      | intro c hc n hn hops ih =>
        intro hcid
        rcases List.mem_cons.mp hc with hc0 | hc1
        · subst hc0; simp at hcid
        · have hc1b : c = ⟨1, [Node.add 1 1]⟩ := by simpa using hc1
          subst hc1b
          have hn2 : n = Node.add 1 1 := by simpa using hn
          subst hn2
          exact ih 1 (by simp [Node.ids]) rfl
    exact hgen 1 h rfl
  have h := C6_uncostable_absent [⟨0, [Node.undef]⟩, ⟨1, [Node.add 1 1]⟩] id
    (fun n costs => astSizeCost n (fun id => (costs id).1)) 3 (5 : Nat)
  refine ⟨?_, h.2.2.1 ⟨7, []⟩ rfl [], h.2.2.2.1⟩
  obtain ⟨m, hm⟩ := h.2.1 (by intro c hc; fin_cases hc <;> simp)
  have habs := (h.1 m hm).1 1 hnc
  rw [hm]
  exact habs

/-! ## Pattern search (src/src/egraph/pattern.rs) -/

/-- ENodeOrVar from src/src/egraph/pattern.rs: a pattern element is either
a concrete node or a pattern variable (an interned GlobalSymbol, modelled
as Nat). -/
inductive ENodeOrVar where
  | enode (n : Node)
  | var (v : Nat)
deriving DecidableEq, Repr

/-- SearchMatches: the matched eclass and its substitutions.  The
substitutions themselves are opaque to the dispatch logic under scrutiny
and are modelled as tokens; the proof-production ast field is dropped. -/
structure SearchMatch where
  eclass : Nat
  substs : List Nat
deriving DecidableEq, Repr

/-- The egraph components Pattern::search_with_limit reads: the
per-operator index classes_by_op (keyed by the node discriminant, here the
variant tag) and all eclass ids in iteration order. -/
structure EGraphS where
  classesByOp : List (Node.Kind × List Nat)
  classes : List Nat

/-- Pattern::search_eclass_with_limit: run the compiled machine program on
one eclass (abstracted by the run function; the pattern virtual machine
lives in egraph internals outside the repository snapshot) and report a
match only when at least one substitution was found. -/
def searchEclassWithLimit (run : Nat → Nat → List Nat) (eclass : Nat)
    (limit : Nat) : Option SearchMatch :=
  if (run eclass limit).isEmpty then none
  else some ⟨eclass, run eclass limit⟩

/-- Modelled from the spec: rewrite::search_eclasses_with_limit is invoked
by Pattern::search_with_limit but its source file (the rewrite module) is
not in the repository snapshot.  Per the spec, a match count limit bounds
the substitutions returned while the given eclasses are searched in order:
the search stops once the remaining limit reaches zero, and each matched
class reduces the remaining limit by its substitution count. -/
def searchEclassesWithLimit (run : Nat → Nat → List Nat) :
    List Nat → Nat → List SearchMatch
  | [], _ => []
  | c :: rest, limit =>
    if limit = 0 then []
    else
      match searchEclassWithLimit run c limit with
      | none => searchEclassesWithLimit run rest limit
      | some m =>
        m :: searchEclassesWithLimit run rest (limit - m.substs.length)

/-- Pattern::search_with_limit: dispatch on the pattern's outermost (last)
element; none models the panic of last().unwrap() on an empty pattern
ast. -/
def patternSearchWithLimit (run : Nat → Nat → List Nat)
    (ast : List ENodeOrVar) (g : EGraphS) (limit : Nat) :
    Option (List SearchMatch) :=
  match ast.getLast? with
  | none => none
  | some (.enode e) =>
    match g.classesByOp.lookup e.kind with
    | none => some []
    | some ids => some (searchEclassesWithLimit run ids limit)
  | some (.var _) => some (searchEclassesWithLimit run g.classes limit)

/-- Every match produced by the bounded eclass-list search concerns one of
the requested eclasses. -/
theorem searchEclasses_eclass_mem (run : Nat → Nat → List Nat) :
    ∀ (ids : List Nat) (limit : Nat) (m : SearchMatch),
      m ∈ searchEclassesWithLimit run ids limit → m.eclass ∈ ids := by
  intro ids
  induction ids with
  | nil => intro limit m h; simp [searchEclassesWithLimit] at h
  | cons c rest ih =>
    intro limit m h
    unfold searchEclassesWithLimit at h
    split at h
    · simp at h
    · cases hse : searchEclassWithLimit run c limit with
      | none =>
        rw [hse] at h
        exact List.mem_cons_of_mem c (ih _ m h)
      | some m2 =>
        rw [hse] at h
        rcases List.mem_cons.mp h with h1 | h1
        · subst h1
          unfold searchEclassWithLimit at hse
          split at hse
          · cases hse
          · cases hse
            exact List.mem_cons_self c rest
        · exact List.mem_cons_of_mem c (ih _ m h1)

/-- C7: the top-level pattern search dispatches on the outermost pattern
element: a concrete root restricts the search to the classes indexed under
the root node's discriminant (and finds nothing when the index has no
entry for it), while a bare-variable root searches every class of the
egraph. -/
theorem C7_search_dispatch (run : Nat → Nat → List Nat)
    (ast : List ENodeOrVar) (g : EGraphS) (limit : Nat) :
    (∀ e, ast.getLast? = some (.enode e) →
      (g.classesByOp.lookup e.kind = none →
        patternSearchWithLimit run ast g limit = some []) ∧
      (∀ ids, g.classesByOp.lookup e.kind = some ids →
        patternSearchWithLimit run ast g limit =
          some (searchEclassesWithLimit run ids limit) ∧
        ∀ m ∈ searchEclassesWithLimit run ids limit, m.eclass ∈ ids)) ∧
    (∀ v, ast.getLast? = some (.var v) →
      patternSearchWithLimit run ast g limit =
        some (searchEclassesWithLimit run g.classes limit) ∧
      ∀ m ∈ searchEclassesWithLimit run g.classes limit,
        m.eclass ∈ g.classes) := by
  constructor
  · intro e hlast
    constructor
    · intro hidx
      unfold patternSearchWithLimit
      rw [hlast]
      show (match g.classesByOp.lookup e.kind with
        | none => some []
        | some ids => some (searchEclassesWithLimit run ids limit)) = some []
      rw [hidx]
    · intro ids hidx
      constructor
      · unfold patternSearchWithLimit
        rw [hlast]
        show (match g.classesByOp.lookup e.kind with
          | none => some []
          | some ids => some (searchEclassesWithLimit run ids limit)) =
          some (searchEclassesWithLimit run ids limit)
        rw [hidx]
      · intro m hm
        exact searchEclasses_eclass_mem run ids limit m hm
  · intro v hlast
    constructor
    · unfold patternSearchWithLimit
      rw [hlast]
    · intro m hm
      exact searchEclasses_eclass_mem run g.classes limit m hm

/-- C7 witness: a pattern rooted at the concrete Undef node searches only
the one class indexed under the Undef discriminant, and a variable-rooted
pattern searches both classes of the egraph. -/
theorem C7_witness :
    patternSearchWithLimit (fun c _ => [c]) [ENodeOrVar.enode Node.undef]
      ⟨[(Node.Kind.undef, [4])], [4, 5]⟩ 10 = some [⟨4, [4]⟩] ∧
    patternSearchWithLimit (fun c _ => [c]) [ENodeOrVar.var 0]
      ⟨[(Node.Kind.undef, [4])], [4, 5]⟩ 10 =
      some [⟨4, [4]⟩, ⟨5, [5]⟩] ∧
    patternSearchWithLimit (fun c _ => [c]) [ENodeOrVar.enode (Node.var 9)]
      ⟨[(Node.Kind.undef, [4])], [4, 5]⟩ 10 = some [] := by
  have h1 := (C7_search_dispatch (fun c _ => [c])
    [ENodeOrVar.enode Node.undef] ⟨[(Node.Kind.undef, [4])], [4, 5]⟩ 10).1
    Node.undef rfl
  have h2 := (C7_search_dispatch (fun c _ => [c]) [ENodeOrVar.var 0]
    ⟨[(Node.Kind.undef, [4])], [4, 5]⟩ 10).2 0 rfl
  have h3 := (C7_search_dispatch (fun c _ => [c])
    [ENodeOrVar.enode (Node.var 9)] ⟨[(Node.Kind.undef, [4])], [4, 5]⟩ 10).1
    (Node.var 9) rfl
  refine ⟨?_, ?_, ?_⟩
  · rw [(h1.2 [4] rfl).1]; rfl
  · rw [h2.1]; rfl
  · exact h3.1 rfl

/-! ## Flat expression lists (src/src/egraph/construct.rs) -/

/-- The slice of the Construct capability used by the RecExpr routines:
operand access and operand replacement, with replacement acting pointwise
on the operand list (as Construct::map_operands does through
for_each_oprnd_mut). -/
class ConstructC (α : Type) where
  operands : α → List Nat
  mapOperands : (Nat → Nat) → α → α
  operands_map : ∀ f n, operands (mapOperands f n) = (operands n).map f

instance : ConstructC Node where
  operands := Node.ids
  mapOperands := Node.mapOps
  operands_map := by
    intro f n
    cases n <;> rfl

instance : ConstructC ENodeOrVar where
  operands
    | .enode n => n.ids
    | .var _ => []
  mapOperands f
    | .enode n => .enode (n.mapOps f)
    | .var v => .var v
  operands_map := by
    intro f n
    cases n with
    | enode n => cases n <;> rfl
    | var v => rfl

/-- RecExpr::is_dag: every node's operand indices are strictly below its
own position in the list. -/
def isDag [ConstructC α] (ns : List α) : Bool :=
  ns.enum.all
    (fun p => (ConstructC.operands p.2).all (fun c => decide (c < p.1)))

/-- Propositional form of the DAG invariant. -/
def DagList [ConstructC α] (ns : List α) : Prop :=
  ∀ (i : Nat) (h : i < ns.length), ∀ c ∈ ConstructC.operands ns[i], c < i

theorem isDag_iff_dagList [ConstructC α] (ns : List α) :
    isDag ns = true ↔ DagList ns := by
  unfold isDag DagList
  rw [List.all_eq_true]
  constructor
  · intro h i hi c hc
    have h2 := List.forall_mem_enum.mp h i hi
    have h3 := List.all_eq_true.mp h2 c hc
    simpa using h3
  · intro h
    rw [List.forall_mem_enum]
    intro i hi
    rw [List.all_eq_true]
    intro c hc
    simpa using h i hi c hc

theorem dagList_append_singleton [ConstructC α] (set : List α) (a : α)
    (hset : DagList set) (ha : ∀ c ∈ ConstructC.operands a, c < set.length) :
    DagList (set ++ [a]) := by
  intro i hi c hc
  rw [List.length_append, List.length_singleton] at hi
  by_cases h : i < set.length
  · rw [List.getElem_append_left h] at hc
    exact hset i h c hc
  · have hieq : i = set.length := by omega
    have hget : (set ++ [a])[i] = a :=
      List.getElem_concat_length set a i hieq (by simp [hieq])
    rw [hget] at hc
    rw [hieq]
    exact ha c hc

theorem insertFull_length [DecidableEq α] (l : List α) (a : α) :
    l.length ≤ (insertFull l a).1.length := by
  unfold insertFull
  cases h : l.findIdx? (fun b => decide (b = a)) <;> simp

theorem insertFull_idx_lt [DecidableEq α] (l : List α) (a : α) :
    (insertFull l a).2 < (insertFull l a).1.length := by
  unfold insertFull
  cases h : l.findIdx? (fun b => decide (b = a)) with
  | none => simp
  | some i =>
    obtain ⟨hlt, -⟩ := List.findIdx?_eq_some_iff_getElem.mp h
    simpa using hlt

theorem insertFull_dag [DecidableEq α] [ConstructC α] (l : List α) (a : α)
    (hl : DagList l) (ha : ∀ c ∈ ConstructC.operands a, c < l.length) :
    DagList (insertFull l a).1 := by
  unfold insertFull
  cases h : l.findIdx? (fun b => decide (b = a)) with
  | none => exact dagList_append_singleton l a hl ha
  | some i => exact hl

/-- RecExpr::compact: renumber each node's operands through the id map,
dedupe the node into an IndexSet, and record the old-to-new id mapping;
an operand missing from the map (a HashMap-index panic in the source, only
possible for a non-DAG input) yields none.  The position counter i is the
enumerate index. -/
def compactGo [DecidableEq α] [ConstructC α] (i : Nat)
    (ids : List (Nat × Nat)) (set : List α) :
    List α → Option (List α)
  | [] => some set
  | n :: rest =>
    if (ConstructC.operands n).all (fun id => (ids.lookup id).isSome) then
      compactGo (i + 1)
        (ids ++ [(i, (insertFull set (ConstructC.mapOperands
          (fun id => (ids.lookup id).getD 0) n)).2)])
        (insertFull set (ConstructC.mapOperands
          (fun id => (ids.lookup id).getD 0) n)).1
        rest
    else none

/-- RecExpr::compact entry point. -/
def compact [DecidableEq α] [ConstructC α] (ns : List α) : Option (List α) :=
  compactGo 0 [] [] ns

theorem compactGo_spec [DecidableEq α] [ConstructC α] :
    ∀ (rest : List α) (i : Nat) (ids : List (Nat × Nat)) (set : List α),
      (∀ (k : Nat) (hk : k < rest.length),
        ∀ c ∈ ConstructC.operands rest[k], c < i + k) →
      (∀ j, j < i → ((ids.lookup j).isSome)) →
      (∀ j v, ids.lookup j = some v → v < set.length) →
      DagList set →
      ∃ out, compactGo i ids set rest = some out ∧ DagList out := by
  intro rest
  induction rest with
  | nil =>
    intro i ids set hrest hdom hbound hdag
    exact ⟨set, rfl, hdag⟩
  | cons n rest ih =>
    intro i ids set hrest hdom hbound hdag
    have hopsn : ∀ c ∈ ConstructC.operands n, c < i := by
      have h0 := hrest 0 (by simp)
      simpa using h0
    have hall : (ConstructC.operands n).all
        (fun id => (ids.lookup id).isSome) = true := by
      rw [List.all_eq_true]
      intro c hc
      simpa using hdom c (hopsn c hc)
    have hops2 : ∀ c ∈ ConstructC.operands (ConstructC.mapOperands
        (fun id => (ids.lookup id).getD 0) n), c < set.length := by
      intro c hc
      rw [ConstructC.operands_map] at hc
      obtain ⟨d, hd, rfl⟩ := List.mem_map.mp hc
      obtain ⟨v, hv⟩ := Option.isSome_iff_exists.mp (hdom d (hopsn d hd))
      rw [hv]
      simpa using hbound d v hv
    unfold compactGo
    rw [if_pos hall]
    refine ih (i + 1) _ _ ?_ ?_ ?_ ?_
    · intro k hk c hc
      have h2 := hrest (k + 1) (by simpa using Nat.succ_lt_succ hk)
      have h3 : c < i + (k + 1) := h2 c (by simpa using hc)
      omega
    · intro j hj
      rw [List.lookup_append]
      by_cases hji : j < i
      · obtain ⟨v, hv⟩ := Option.isSome_iff_exists.mp (hdom j hji)
        rw [hv]
        rfl
      · have hjeq : j = i := by omega
        subst hjeq
        cases hlk : ids.lookup j with
        | some v => rfl
        | none => simp [List.lookup_cons]
    · intro j v hjv
      rw [List.lookup_append] at hjv
      cases hlk : ids.lookup j with
      | some w =>
        rw [hlk] at hjv
        have hvw : w = v := by
          simpa using hjv
        subst hvw
        exact lt_of_lt_of_le (hbound j w hlk) (insertFull_length _ _)
      | none =>
        rw [hlk] at hjv
        simp only [Option.none_or] at hjv
        rw [List.lookup_cons] at hjv
        cases hji : (j == i) with
        | false => rw [hji] at hjv; simp at hjv
        | true =>
          rw [hji] at hjv
          have hv2 : (insertFull set (ConstructC.mapOperands
              (fun id => (ids.lookup id).getD 0) n)).2 = v := by
            simpa using hjv
          rw [← hv2]
          exact insertFull_idx_lt _ _
    · exact insertFull_dag _ _ hdag hops2

/-- C8 part one: compacting a DAG-ordered list succeeds and yields a
DAG-ordered list. -/
theorem compact_dag [DecidableEq α] [ConstructC α] (ns : List α)
    (h : isDag ns = true) :
    ∃ out, compact ns = some out ∧ isDag out = true := by
  have hd := (isDag_iff_dagList ns).mp h
  obtain ⟨out, hout, hdag⟩ := compactGo_spec ns 0 [] []
    (by intro k hk c hc; simpa using hd k hk c hc)
    (by intro j hj; omega)
    (by intro j v hv; simp at hv)
    (by intro i hi; simp at hi)
  exact ⟨out, hout, (isDag_iff_dagList out).mpr hdag⟩

/-- The body of one try_build_recexpr loop iteration once the node was
fetched: if no operand is missing from the id map, renumber the node,
hash-cons it into the set and map its id, popping it from the stack;
otherwise push the missing operands (in operand order, so the last missing
one ends on top) above it.  The stack keeps its top at the head here (the
source Vec pushes and pops at the end). -/
def tbrStep [DecidableEq α] [ConstructC α] (ids : List (Nat × Nat))
    (set : List α) (id : Nat) (rest : List Nat) (node : α) :
    List α × List (Nat × Nat) × List Nat :=
  if ((ConstructC.operands node).filter
      (fun c => (ids.lookup c).isNone)).isEmpty then
    ((insertFull set (ConstructC.mapOperands
        (fun c => (ids.lookup c).getD 0) node)).1,
     ids ++ [(id, (insertFull set (ConstructC.mapOperands
        (fun c => (ids.lookup c).getD 0) node)).2)],
     rest)
  else
    (set, ids,
     ((ConstructC.operands node).filter
        (fun c => (ids.lookup c).isNone)).reverse ++ id :: rest)

/-- Construct::try_build_recexpr's worklist loop.  Fuel bounds the while
loop, whose termination depends on the supplied get_node; get_node failure
propagates as none, as does fuel exhaustion. -/
def tbrGo [DecidableEq α] [ConstructC α] (getNode : Nat → Option α) :
    Nat → List α → List (Nat × Nat) → List Nat →
    Option (List α × List (Nat × Nat))
  | 0, _, _, _ => none
  | _ + 1, set, ids, [] => some (set, ids)
  | fuel + 1, set, ids, id :: rest =>
    if (ids.lookup id).isSome then tbrGo getNode fuel set ids rest
    else
      match getNode id with
      | none => none
      | some node =>
        tbrGo getNode fuel (tbrStep ids set id rest node).1
          (tbrStep ids set id rest node).2.1 (tbrStep ids set id rest node).2.2

/-- Construct::try_build_recexpr: run the worklist over the root's
operands, then append the root with its operands renumbered.  The final
guard models the HashMap-index panic; it is provably always taken when the
loop finishes. -/
def tryBuildRecexpr [DecidableEq α] [ConstructC α] (getNode : Nat → Option α)
    (fuel : Nat) (root : α) : Option (List α) :=
  match tbrGo getNode fuel [] [] (ConstructC.operands root).reverse with
  | none => none
  | some (set, ids) =>
    if (ConstructC.operands root).all (fun c => (ids.lookup c).isSome) then
      some (set ++ [ConstructC.mapOperands
        (fun c => (ids.lookup c).getD 0) root])
    else none

theorem tbrGo_spec [DecidableEq α] [ConstructC α] (getNode : Nat → Option α) :
    ∀ (fuel : Nat) (set : List α) (ids : List (Nat × Nat)) (todo : List Nat)
      (set2 : List α) (ids2 : List (Nat × Nat)),
      tbrGo getNode fuel set ids todo = some (set2, ids2) →
      (∀ j v, ids.lookup j = some v → v < set.length) →
      DagList set →
      (DagList set2 ∧
       (∀ j v, ids2.lookup j = some v → v < set2.length) ∧
       (∀ j, ((ids.lookup j).isSome) → ((ids2.lookup j).isSome)) ∧
       (∀ x ∈ todo, ((ids2.lookup x).isSome))) := by
  intro fuel
  induction fuel with
  | zero =>
    intro set ids todo set2 ids2 h
    cases h
  | succ fuel ih =>
    intro set ids todo set2 ids2 h hbound hdag
    cases todo with
    | nil =>
      obtain ⟨rfl, rfl⟩ : set = set2 ∧ ids = ids2 := by
        have h2 : (some (set, ids) : Option (List α × List (Nat × Nat))) =
            some (set2, ids2) := h
        cases h2
        exact ⟨rfl, rfl⟩
      exact ⟨hdag, hbound, fun j hj => hj, by simp⟩
    | cons id rest =>
      unfold tbrGo at h
      by_cases hin : (ids.lookup id).isSome
      · rw [if_pos hin] at h
        obtain ⟨hdag2, hbound2, hmono, htodo⟩ :=
          ih set ids rest set2 ids2 h hbound hdag
        refine ⟨hdag2, hbound2, hmono, ?_⟩
        intro x hx
        rcases List.mem_cons.mp hx with hx1 | hx1
        · subst hx1
          exact hmono x hin
        · exact htodo x hx1
      · rw [if_neg hin] at h
        cases hget : getNode id with
        | none => rw [hget] at h; cases h
        | some node =>
          rw [hget] at h
          have h2 : tbrGo getNode fuel (tbrStep ids set id rest node).1
              (tbrStep ids set id rest node).2.1
              (tbrStep ids set id rest node).2.2 = some (set2, ids2) := h
          clear h
          by_cases hmiss : ((ConstructC.operands node).filter
              (fun c => (ids.lookup c).isNone)).isEmpty = true
          · have hstep : tbrStep ids set id rest node =
                ((insertFull set (ConstructC.mapOperands
                    (fun c => (ids.lookup c).getD 0) node)).1,
                 ids ++ [(id, (insertFull set (ConstructC.mapOperands
                    (fun c => (ids.lookup c).getD 0) node)).2)],
                 rest) := by
              unfold tbrStep
              rw [if_pos hmiss]
            rw [hstep] at h2
            have hopsnode : ∀ c ∈ ConstructC.operands node,
                ((ids.lookup c).isSome) := by
              intro c hc
              by_contra hcn
              have hcn2 : (ids.lookup c).isNone = true := by
                cases hl : ids.lookup c with
                | none => rfl
                | some v => rw [hl] at hcn; simp at hcn
              have hcm : c ∈ (ConstructC.operands node).filter
                  (fun c => (ids.lookup c).isNone) :=
                List.mem_filter.mpr ⟨hc, hcn2⟩
              rw [List.isEmpty_iff] at hmiss
              rw [hmiss] at hcm
              exact List.not_mem_nil c hcm
            have hops2 : ∀ c ∈ ConstructC.operands (ConstructC.mapOperands
                (fun c => (ids.lookup c).getD 0) node), c < set.length := by
              intro c hc
              rw [ConstructC.operands_map] at hc
              obtain ⟨d, hd, rfl⟩ := List.mem_map.mp hc
              obtain ⟨v, hv⟩ := Option.isSome_iff_exists.mp (hopsnode d hd)
              rw [hv]
              simpa using hbound d v hv
            have hbound2 : ∀ j v,
                (ids ++ [(id, (insertFull set (ConstructC.mapOperands
                  (fun c => (ids.lookup c).getD 0) node)).2)]).lookup j =
                    some v →
                v < (insertFull set (ConstructC.mapOperands
                  (fun c => (ids.lookup c).getD 0) node)).1.length := by
              intro j v hjv
              rw [List.lookup_append] at hjv
              cases hlk : ids.lookup j with
              | some w =>
                rw [hlk] at hjv
                have hvw : w = v := by simpa using hjv
                subst hvw
                exact lt_of_lt_of_le (hbound j w hlk) (insertFull_length _ _)
              | none =>
                rw [hlk] at hjv
                simp only [Option.none_or] at hjv
                rw [List.lookup_cons] at hjv
                cases hji : (j == id) with
                | false => rw [hji] at hjv; simp at hjv
                | true =>
                  rw [hji] at hjv
                  have hv2 : (insertFull set (ConstructC.mapOperands
                      (fun c => (ids.lookup c).getD 0) node)).2 = v := by
                    simpa using hjv
                  rw [← hv2]
                  exact insertFull_idx_lt _ _
            obtain ⟨hdag3, hbound3, hmono3, htodo3⟩ :=
              ih _ _ rest set2 ids2 h2 hbound2
                (insertFull_dag _ _ hdag hops2)
            have hmono4 : ∀ j, ((ids.lookup j).isSome) →
                ((ids2.lookup j).isSome) := by
              intro j hj
              refine hmono3 j ?_
              rw [List.lookup_append]
              obtain ⟨v, hv⟩ := Option.isSome_iff_exists.mp hj
              rw [hv]
              rfl
            refine ⟨hdag3, hbound3, hmono4, ?_⟩
            intro x hx
            rcases List.mem_cons.mp hx with hx1 | hx1
            · subst hx1
              refine hmono3 x ?_
              rw [List.lookup_append]
              cases hlk : ids.lookup x with
              | some v => rfl
              | none => simp [List.lookup_cons]
            · exact htodo3 x hx1
          · have hstep : tbrStep ids set id rest node =
                (set, ids,
                 ((ConstructC.operands node).filter
                    (fun c => (ids.lookup c).isNone)).reverse ++ id :: rest)
                := by
              unfold tbrStep
              rw [if_neg hmiss]
            rw [hstep] at h2
            obtain ⟨hdag2, hbound2, hmono, htodo⟩ :=
              ih set ids _ set2 ids2 h2 hbound hdag
            refine ⟨hdag2, hbound2, hmono, ?_⟩
            intro x hx
            refine htodo x ?_
            rw [List.mem_append]
            right
            exact hx

/-- C8 part two: any list the worklist construction returns satisfies the
DAG invariant, for every get_node function, fuel and root. -/
theorem tryBuildRecexpr_dag [DecidableEq α] [ConstructC α]
    (getNode : Nat → Option α) (fuel : Nat) (root : α) (out : List α)
    (h : tryBuildRecexpr getNode fuel root = some out) :
    isDag out = true := by
  unfold tryBuildRecexpr at h
  cases htbr : tbrGo getNode fuel [] [] (ConstructC.operands root).reverse
      with
  | none => rw [htbr] at h; cases h
  | some p =>
    rw [htbr] at h
    obtain ⟨set, ids⟩ := p
    obtain ⟨hdag, hbound, -, -⟩ := tbrGo_spec getNode fuel [] []
      (ConstructC.operands root).reverse set ids htbr
      (by intro j v hv; simp at hv)
      (by intro i hi; simp at hi)
    have h2 : (if (ConstructC.operands root).all
          (fun c => (ids.lookup c).isSome) = true
        then some (set ++ [ConstructC.mapOperands
          (fun c => (ids.lookup c).getD 0) root])
        else none) = some out := h
    by_cases hall : (ConstructC.operands root).all
        (fun c => (ids.lookup c).isSome) = true
    · rw [if_pos hall] at h2
      have hout : set ++ [ConstructC.mapOperands
          (fun c => (ids.lookup c).getD 0) root] = out :=
        Option.some.inj h2
      subst hout
      rw [isDag_iff_dagList]
      refine dagList_append_singleton set _ hdag ?_
      intro c hc
      rw [ConstructC.operands_map] at hc
      obtain ⟨d, hd, rfl⟩ := List.mem_map.mp hc
      have hds := List.all_eq_true.mp hall d hd
      obtain ⟨v, hv⟩ := Option.isSome_iff_exists.mp hds
      rw [hv]
      simpa using hbound d v hv
    · rw [if_neg hall] at h2
      cases h2

/-- C8: the compaction routine maps DAG-ordered expression lists to
DAG-ordered ones, and sub-term extraction through try_build_recexpr (hence
build_recexpr, RecExpr::extract and the extractor's find_best) always
returns a DAG-ordered list. -/
theorem C8_dag_invariant {α : Type} [DecidableEq α] [ConstructC α]
    (ns : List α) (getNode : Nat → Option α) (fuel : Nat) (root : α) :
    (isDag ns = true → ∃ out, compact ns = some out ∧ isDag out = true) ∧
    (∀ out, tryBuildRecexpr getNode fuel root = some out →
      isDag out = true) := by
  constructor
  · intro h
    exact compact_dag ns h
  · intro out h
    exact tryBuildRecexpr_dag getNode fuel root out h

/-- C8 witness: the theorem applied to the two-node DAG [Undef, Add(0,0)]
and to a worklist extraction whose get_node always returns Undef. -/
theorem C8_witness :
    (∃ out, compact [Node.undef, Node.add 0 0] = some out ∧
      isDag out = true) ∧
    isDag [Node.undef, Node.add 0 0] = true := by
  constructor
  · exact (C8_dag_invariant [Node.undef, Node.add 0 0]
      (fun _ => some Node.undef) 3 (Node.add 0 0)).1 (by decide)
  · have h := (C8_dag_invariant ([] : List Node)
      (fun _ => some Node.undef) 3 (Node.add 0 1)).2
      [Node.undef, Node.add 0 0] (by decide)
    exact h

/-! ## Saturation driver (src/src/egraph/run.rs, Runner)

The runner is generic over the analysis, the rules and the hooks; its
collaborators are modelled by a World of abstract functions over an opaque
egraph state σ (which also carries the wall clock the source reads through
Instant), a scheduler state τ and per-rule match lists μ.  Each phase call
appends an Event to an instrumentation trace recording the order in which
run_one invokes its collaborators. -/

/-- StopReason from src/src/egraph/run.rs (times as abstract Nat units). -/
inductive StopReason where
  | saturated
  | iterationLimit (n : Nat)
  | nodeLimit (n : Nat)
  | timeLimit (t : Nat)
  | other (msg : String)
deriving DecidableEq, Repr

/-- Trace events marking each collaborator call inside run_one. -/
inductive Event where
  | hookRun (i : Nat)
  | searchRule (r : Nat)
  | applyRule (r : Nat)
  | rebuildCall
  | satCheck
deriving DecidableEq, Repr

/-- The runner's collaborators: egraph observations and rebuild, and the
RewriteScheduler trait methods (search_rewrite reads the egraph immutably;
apply_rewrite mutates it; can_stop mutates only the scheduler). -/
structure World (σ τ μ : Type) where
  totalSize : σ → Nat
  numClasses : σ → Nat
  elapsed : σ → Nat
  rebuild : σ → σ × Nat
  canStop : τ → Nat → Bool × τ
  searchRewrite : τ → Nat → σ → Nat → μ × τ
  applyRewrite : τ → Nat → σ → Nat → μ → Nat × σ × τ

/-- The runner's limits (iter_limit, node_limit, time_limit). -/
structure Limits where
  iterLimit : Nat
  nodeLimit : Nat
  timeLimit : Nat
deriving DecidableEq, Repr

/-- The per-round Iteration record (timing fields omitted; applied is the
per-rule newly-applied count map in insertion order). -/
structure Iter where
  egraphNodes : Nat
  egraphClasses : Nat
  applied : List (Nat × Nat)
  nRebuilds : Nat
  stopReason : Option StopReason
deriving DecidableEq, Repr

/-- The mutable runner state threaded through the run loop. -/
structure RunnerSt (σ τ : Type) where
  egraph : σ
  sched : τ
  iters : List Iter

/-- Runner::check_limits: wall clock first, then the node budget, then the
iteration budget. -/
def checkLimits (w : World σ τ μ) (lim : Limits) (eg : σ) (itersLen : Nat) :
    Option StopReason :=
  if lim.timeLimit < w.elapsed eg then some (.timeLimit (w.elapsed eg))
  else if lim.nodeLimit < w.totalSize eg then
    some (.nodeLimit (w.totalSize eg))
  else if lim.iterLimit ≤ itersLen then some (.iterationLimit itersLen)
  else none

/-- The hook phase: run each hook in order until one fails (StopReason
Other) with its message; hooks may mutate the egraph state. -/
def runHooks (hooks : List (σ → Except String σ)) (idx : Nat) (eg : σ) :
    Option StopReason × σ × List Event :=
  match hooks with
  | [] => (none, eg, [])
  | h :: rest =>
    match h eg with
    | .error msg => (some (.other msg), eg, [.hookRun idx])
    | .ok eg2 =>
      ((runHooks rest (idx + 1) eg2).1, (runHooks rest (idx + 1) eg2).2.1,
       .hookRun idx :: (runHooks rest (idx + 1) eg2).2.2)

/-- The search phase: each rule is searched through the scheduler and its
matches pushed before check_limits runs; a limit failure stops the loop
with the remaining rules unsearched. -/
def searchPhase (w : World σ τ μ) (lim : Limits) (i : Nat) (eg : σ) :
    τ → List Nat → Option StopReason × τ × List μ × List Event
  | sched, [] => (none, sched, [], [])
  | sched, r :: rest =>
    match checkLimits w lim eg i with
    | some sr =>
      (some sr, (w.searchRewrite sched i eg r).2,
       [(w.searchRewrite sched i eg r).1], [.searchRule r])
    | none =>
      ((searchPhase w lim i eg (w.searchRewrite sched i eg r).2 rest).1,
       (searchPhase w lim i eg (w.searchRewrite sched i eg r).2 rest).2.1,
       (w.searchRewrite sched i eg r).1 ::
         (searchPhase w lim i eg (w.searchRewrite sched i eg r).2 rest).2.2.1,
       Event.searchRule r ::
         (searchPhase w lim i eg (w.searchRewrite sched i eg r).2 rest).2.2.2)

/-- The applied-count update: bump an existing per-rule entry or append a
fresh one (IndexMap get_mut / insert). -/
def bump (applied : List (Nat × Nat)) (r n : Nat) : List (Nat × Nat) :=
  if (applied.lookup r).isSome then
    applied.map (fun p => if p.1 = r then (p.1, p.2 + n) else p)
  else applied ++ [(r, n)]

/-- The apply phase over the rule / match-list pairs: apply through the
scheduler, record rules that actually matched, then check limits. -/
def applyPhase (w : World σ τ μ) (lim : Limits) (i : Nat) :
    List (Nat × μ) → σ → τ → List (Nat × Nat) →
    Option StopReason × σ × τ × List (Nat × Nat) × List Event
  | [], eg, sched, applied => (none, eg, sched, applied, [])
  | (r, ms) :: rest, eg, sched, applied =>
    match checkLimits w lim (w.applyRewrite sched i eg r ms).2.1 i with
    | some sr =>
      (some sr, (w.applyRewrite sched i eg r ms).2.1,
       (w.applyRewrite sched i eg r ms).2.2,
       if 0 < (w.applyRewrite sched i eg r ms).1
       then bump applied r (w.applyRewrite sched i eg r ms).1 else applied,
       [.applyRule r])
    | none =>
      ((applyPhase w lim i rest (w.applyRewrite sched i eg r ms).2.1
          (w.applyRewrite sched i eg r ms).2.2
          (if 0 < (w.applyRewrite sched i eg r ms).1
           then bump applied r (w.applyRewrite sched i eg r ms).1
           else applied)).1,
       (applyPhase w lim i rest (w.applyRewrite sched i eg r ms).2.1
          (w.applyRewrite sched i eg r ms).2.2
          (if 0 < (w.applyRewrite sched i eg r ms).1
           then bump applied r (w.applyRewrite sched i eg r ms).1
           else applied)).2.1,
       (applyPhase w lim i rest (w.applyRewrite sched i eg r ms).2.1
          (w.applyRewrite sched i eg r ms).2.2
          (if 0 < (w.applyRewrite sched i eg r ms).1
           then bump applied r (w.applyRewrite sched i eg r ms).1
           else applied)).2.2.1,
       (applyPhase w lim i rest (w.applyRewrite sched i eg r ms).2.1
          (w.applyRewrite sched i eg r ms).2.2
          (if 0 < (w.applyRewrite sched i eg r ms).1
           then bump applied r (w.applyRewrite sched i eg r ms).1
           else applied)).2.2.2.1,
       Event.applyRule r ::
         (applyPhase w lim i rest (w.applyRewrite sched i eg r ms).2.1
            (w.applyRewrite sched i eg r ms).2.2
            (if 0 < (w.applyRewrite sched i eg r ms).1
             then bump applied r (w.applyRewrite sched i eg r ms).1
             else applied)).2.2.2.2)

/-- The hook stage of run_one: the initial check_limits gates the hooks
(the and_then chain skips them once a stop reason exists). -/
def hookOut (w : World σ τ μ) (lim : Limits)
    (hooks : List (σ → Except String σ)) (st : RunnerSt σ τ) :
    Option StopReason × σ × List Event :=
  match checkLimits w lim st.egraph st.iters.length with
  | some sr => (some sr, st.egraph, [])
  | none => runHooks hooks 0 st.egraph

/-- The search stage of run_one, skipped entirely when a stop reason
already exists. -/
def searchOut (w : World σ τ μ) (lim : Limits)
    (hooks : List (σ → Except String σ)) (rules : List Nat)
    (st : RunnerSt σ τ) : Option StopReason × τ × List μ × List Event :=
  match (hookOut w lim hooks st).1 with
  | some sr => (some sr, st.sched, [], [])
  | none =>
    searchPhase w lim st.iters.length (hookOut w lim hooks st).2.1 st.sched
      rules

/-- The apply stage of run_one, skipped entirely when a stop reason already
exists (rules.zip pairs each rule with its collected match list). -/
def applyOut (w : World σ τ μ) (lim : Limits)
    (hooks : List (σ → Except String σ)) (rules : List Nat)
    (st : RunnerSt σ τ) :
    Option StopReason × σ × τ × List (Nat × Nat) × List Event :=
  match (searchOut w lim hooks rules st).1 with
  | some sr =>
    (some sr, (hookOut w lim hooks st).2.1,
     (searchOut w lim hooks rules st).2.1, [], [])
  | none =>
    applyPhase w lim st.iters.length
      (rules.zip (searchOut w lim hooks rules st).2.2.1)
      (hookOut w lim hooks st).2.1 (searchOut w lim hooks rules st).2.1 []

/-- The observables of one run_one call before the saturation decision. -/
structure PhaseOut (σ τ : Type) where
  n0 : Nat
  c0 : Nat
  n1 : Nat
  c1 : Nat
  resultPre : Option StopReason
  applied : List (Nat × Nat)
  egEnd : σ
  sched : τ
  nReb : Nat
  trace : List Event

/-- Runner::run_one up to and including the unconditional rebuild: node and
class counts before hooks (n0, c0) and after hooks (n1, c1), the threaded
stop result, the applied map, the rebuilt egraph and the trace. -/
def runOnePhases (w : World σ τ μ) (lim : Limits)
    (hooks : List (σ → Except String σ)) (rules : List Nat)
    (st : RunnerSt σ τ) : PhaseOut σ τ :=
  { n0 := w.totalSize st.egraph
    c0 := w.numClasses st.egraph
    n1 := w.totalSize (hookOut w lim hooks st).2.1
    c1 := w.numClasses (hookOut w lim hooks st).2.1
    resultPre := (applyOut w lim hooks rules st).1
    applied := (applyOut w lim hooks rules st).2.2.2.1
    egEnd := (w.rebuild (applyOut w lim hooks rules st).2.1).1
    sched := (applyOut w lim hooks rules st).2.2.1
    nReb := (w.rebuild (applyOut w lim hooks rules st).2.1).2
    trace := (hookOut w lim hooks st).2.2 ++
      (searchOut w lim hooks rules st).2.2.2 ++
      (applyOut w lim hooks rules st).2.2.2.2 ++
      [.rebuildCall, .satCheck] }

/-- The can_be_saturated condition of run_one: nothing applied, the
scheduler permits stopping, and the counts are unchanged across the hook
phase and across the whole round. -/
def canBeSaturated (w : World σ τ μ) (i : Nat) (p : PhaseOut σ τ) : Bool :=
  p.applied.isEmpty && (w.canStop p.sched i).1 &&
  (p.n0 == p.n1) && (p.c0 == p.c1) &&
  (p.n0 == w.totalSize p.egEnd) && (p.c0 == w.numClasses p.egEnd)

/-- The Iteration record run_one returns: an earlier stop reason wins over
Saturated (result.and(Err(Saturated)) keeps the first error). -/
def runOneIter (w : World σ τ μ) (lim : Limits)
    (hooks : List (σ → Except String σ)) (rules : List Nat)
    (st : RunnerSt σ τ) : Iter :=
  { egraphNodes := (runOnePhases w lim hooks rules st).n0
    egraphClasses := (runOnePhases w lim hooks rules st).c0
    applied := (runOnePhases w lim hooks rules st).applied
    nRebuilds := (runOnePhases w lim hooks rules st).nReb
    stopReason :=
      match (runOnePhases w lim hooks rules st).resultPre with
      | some sr => some sr
      | none =>
        if canBeSaturated w st.iters.length (runOnePhases w lim hooks rules st)
        then some .saturated else none }

/-- The runner state after run_one; can_stop's scheduler mutation happens
only when the applied map is empty (the && short-circuit). -/
def runOneState (w : World σ τ μ) (lim : Limits)
    (hooks : List (σ → Except String σ)) (rules : List Nat)
    (st : RunnerSt σ τ) : RunnerSt σ τ :=
  { egraph := (runOnePhases w lim hooks rules st).egEnd
    sched :=
      if (runOnePhases w lim hooks rules st).applied.isEmpty then
        (w.canStop (runOnePhases w lim hooks rules st).sched
          st.iters.length).2
      else (runOnePhases w lim hooks rules st).sched
    iters := st.iters ++ [runOneIter w lim hooks rules st] }

/-- Runner::run_one: the produced Iteration record, the new runner state,
and the call trace. -/
def runOne (w : World σ τ μ) (lim : Limits)
    (hooks : List (σ → Except String σ)) (rules : List Nat)
    (st : RunnerSt σ τ) : Iter × RunnerSt σ τ × List Event :=
  (runOneIter w lim hooks rules st, runOneState w lim hooks rules st,
   (runOnePhases w lim hooks rules st).trace)

/-- The Runner::run loop: push an iteration, stop on its stop reason or on
check_limits, else continue.  Fuel bounds the loop; iter_limit + 1 provably
suffices. -/
def runLoop (w : World σ τ μ) (lim : Limits)
    (hooks : List (σ → Except String σ)) (rules : List Nat) :
    Nat → RunnerSt σ τ → RunnerSt σ τ × Option StopReason
  | 0, st => (st, none)
  | fuel + 1, st =>
    match (runOne w lim hooks rules st).1.stopReason with
    | some sr => ((runOne w lim hooks rules st).2.1, some sr)
    | none =>
      match checkLimits w lim (runOne w lim hooks rules st).2.1.egraph
          (runOne w lim hooks rules st).2.1.iters.length with
      | some sr => ((runOne w lim hooks rules st).2.1, some sr)
      | none => runLoop w lim hooks rules fuel (runOne w lim hooks rules st).2.1

/-- Runner::run: rebuild the egraph once, then loop. -/
def run (w : World σ τ μ) (lim : Limits)
    (hooks : List (σ → Except String σ)) (rules : List Nat)
    (st0 : RunnerSt σ τ) : RunnerSt σ τ × Option StopReason :=
  runLoop w lim hooks rules (lim.iterLimit + 1)
    { st0 with egraph := (w.rebuild st0.egraph).1 }

theorem checkLimits_ne_saturated (w : World σ τ μ) (lim : Limits) (eg : σ)
    (n : Nat) : checkLimits w lim eg n ≠ some .saturated := by
  unfold checkLimits
  split
  · simp
  · split
    · simp
    · split <;> simp

theorem checkLimits_none (w : World σ τ μ) (lim : Limits) (eg : σ)
    (n : Nat) (h : checkLimits w lim eg n = none) :
    w.elapsed eg ≤ lim.timeLimit ∧ w.totalSize eg ≤ lim.nodeLimit ∧
    n < lim.iterLimit := by
  unfold checkLimits at h
  split at h
  · cases h
  · split at h
    · cases h
    · split at h
      · cases h
      · rename_i h1 h2 h3
        exact ⟨by omega, by omega, by omega⟩

theorem runHooks_ne_saturated (hooks : List (σ → Except String σ)) :
    ∀ (idx : Nat) (eg : σ), (runHooks hooks idx eg).1 ≠ some .saturated := by
  induction hooks with
  | nil => intro idx eg; simp [runHooks]
  | cons h rest ih =>
    intro idx eg
    unfold runHooks
    cases hh : h eg with
    | error msg => simp
    | ok eg2 => exact ih (idx + 1) eg2

theorem searchPhase_ne_saturated (w : World σ τ μ) (lim : Limits) (i : Nat)
    (eg : σ) : ∀ (rs : List Nat) (sched : τ),
    (searchPhase w lim i eg sched rs).1 ≠ some .saturated := by
  intro rs
  induction rs with
  | nil => intro sched; simp [searchPhase]
  | cons r rest ih =>
    intro sched
    unfold searchPhase
    cases hc : checkLimits w lim eg i with
    | some sr =>
      intro hcon
      have hsr : sr = .saturated := by simpa using hcon
      subst hsr
      exact checkLimits_ne_saturated w lim eg i hc
    | none => exact ih _

theorem applyPhase_ne_saturated (w : World σ τ μ) (lim : Limits) (i : Nat) :
    ∀ (ps : List (Nat × μ)) (eg : σ) (sched : τ)
      (applied : List (Nat × Nat)),
      (applyPhase w lim i ps eg sched applied).1 ≠ some .saturated := by
  intro ps
  induction ps with
  | nil => intro eg sched applied; simp [applyPhase]
  | cons p rest ih =>
    intro eg sched applied
    obtain ⟨r, ms⟩ := p
    unfold applyPhase
    cases hc : checkLimits w lim (w.applyRewrite sched i eg r ms).2.1 i with
    | some sr =>
      intro hcon
      have hsr : sr = .saturated := by simpa using hcon
      subst hsr
      exact checkLimits_ne_saturated w lim _ i hc
    | none => exact ih _ _ _

theorem hookOut_ne_saturated (w : World σ τ μ) (lim : Limits)
    (hooks : List (σ → Except String σ)) (st : RunnerSt σ τ) :
    (hookOut w lim hooks st).1 ≠ some .saturated := by
  unfold hookOut
  cases hc : checkLimits w lim st.egraph st.iters.length with
  | some sr =>
    intro hcon
    have hsr : sr = .saturated := by simpa using hcon
    subst hsr
    exact checkLimits_ne_saturated w lim st.egraph st.iters.length hc
  | none => exact runHooks_ne_saturated hooks 0 st.egraph

theorem searchOut_ne_saturated (w : World σ τ μ) (lim : Limits)
    (hooks : List (σ → Except String σ)) (rules : List Nat)
    (st : RunnerSt σ τ) :
    (searchOut w lim hooks rules st).1 ≠ some .saturated := by
  unfold searchOut
  cases hh : (hookOut w lim hooks st).1 with
  | some sr =>
    intro hcon
    have hsr : sr = .saturated := by simpa using hcon
    subst hsr
    exact hookOut_ne_saturated w lim hooks st hh
  | none => exact searchPhase_ne_saturated w lim st.iters.length _ rules _

theorem applyOut_ne_saturated (w : World σ τ μ) (lim : Limits)
    (hooks : List (σ → Except String σ)) (rules : List Nat)
    (st : RunnerSt σ τ) :
    (applyOut w lim hooks rules st).1 ≠ some .saturated := by
  unfold applyOut
  cases hs : (searchOut w lim hooks rules st).1 with
  | some sr =>
    intro hcon
    have hsr : sr = .saturated := by simpa using hcon
    subst hsr
    exact searchOut_ne_saturated w lim hooks rules st hs
  | none => exact applyPhase_ne_saturated w lim st.iters.length _ _ _ _

/-- The can_be_saturated Bool unfolded into its propositional content. -/
theorem canBeSaturated_iff (w : World σ τ μ) (i : Nat) (p : PhaseOut σ τ) :
    canBeSaturated w i p = true ↔
      (p.applied = [] ∧ (w.canStop p.sched i).1 = true ∧
       p.n0 = p.n1 ∧ p.c0 = p.c1 ∧
       p.n0 = w.totalSize p.egEnd ∧ p.c0 = w.numClasses p.egEnd) := by
  unfold canBeSaturated
  simp [Bool.and_eq_true, List.isEmpty_iff, and_assoc]

/-- C3: run_one records the Saturated stop reason exactly when no earlier
stop reason arose in the round, no rewrite actually applied, the scheduler
permits stopping, and the node and class counts agree before the hooks,
after the hooks, and at the end of the round after apply and rebuild. -/
theorem C3_saturated_iff (w : World σ τ μ) (lim : Limits)
    (hooks : List (σ → Except String σ)) (rules : List Nat)
    (st : RunnerSt σ τ) :
    (runOne w lim hooks rules st).1.stopReason = some .saturated ↔
      ((runOnePhases w lim hooks rules st).resultPre = none ∧
       (runOnePhases w lim hooks rules st).applied = [] ∧
       (w.canStop (runOnePhases w lim hooks rules st).sched
          st.iters.length).1 = true ∧
       (runOnePhases w lim hooks rules st).n0 =
         (runOnePhases w lim hooks rules st).n1 ∧
       (runOnePhases w lim hooks rules st).c0 =
         (runOnePhases w lim hooks rules st).c1 ∧
       (runOnePhases w lim hooks rules st).n0 =
         w.totalSize (runOnePhases w lim hooks rules st).egEnd ∧
       (runOnePhases w lim hooks rules st).c0 =
         w.numClasses (runOnePhases w lim hooks rules st).egEnd) := by
  have hpre : (runOnePhases w lim hooks rules st).resultPre ≠
      some .saturated :=
    applyOut_ne_saturated w lim hooks rules st
  show (runOneIter w lim hooks rules st).stopReason = _ ↔ _
  show (match (runOnePhases w lim hooks rules st).resultPre with
    | some sr => some sr
    | none =>
      if canBeSaturated w st.iters.length (runOnePhases w lim hooks rules st)
      then some StopReason.saturated else none) = _ ↔ _
  cases hres : (runOnePhases w lim hooks rules st).resultPre with
  | some sr =>
    constructor
    · intro hcon
      have hsr : sr = .saturated := by simpa using hcon
      subst hsr
      exact absurd hres hpre
    · rintro ⟨h1, -⟩
      cases h1
  | none =>
    by_cases hb : canBeSaturated w st.iters.length
        (runOnePhases w lim hooks rules st) = true
    · rw [if_pos hb]
      obtain ⟨h2, h3, h4, h5, h6, h7⟩ := (canBeSaturated_iff w _ _).mp hb
      exact ⟨fun _ => ⟨rfl, h2, h3, h4, h5, h6, h7⟩, fun _ => rfl⟩
    · rw [if_neg hb]
      constructor
      · intro hcon
        cases hcon
      · rintro ⟨-, h2, h3, h4, h5, h6, h7⟩
        exact absurd ((canBeSaturated_iff w _ _).mpr
          ⟨h2, h3, h4, h5, h6, h7⟩) hb

theorem runHooks_trace (hooks : List (σ → Except String σ)) :
    ∀ (idx : Nat) (eg : σ), ∀ e ∈ (runHooks hooks idx eg).2.2,
      ∃ i, e = Event.hookRun i := by
  induction hooks with
  | nil => intro idx eg e he; simp [runHooks] at he
  | cons h rest ih =>
    intro idx eg e he
    unfold runHooks at he
    cases hh : h eg with
    | error msg =>
      rw [hh] at he
      have he2 : e ∈ [Event.hookRun idx] := he
      have he3 : e = Event.hookRun idx := by simpa using he2
      exact ⟨idx, he3⟩
    | ok eg2 =>
      rw [hh] at he
      have he2 : e ∈ Event.hookRun idx ::
          (runHooks rest (idx + 1) eg2).2.2 := he
      rcases List.mem_cons.mp he2 with h1 | h1
      · exact ⟨idx, h1⟩
      · exact ih (idx + 1) eg2 e h1

theorem searchPhase_trace (w : World σ τ μ) (lim : Limits) (i : Nat)
    (eg : σ) : ∀ (rs : List Nat) (sched : τ),
    ∃ k, (searchPhase w lim i eg sched rs).2.2.2 =
      (rs.take k).map Event.searchRule := by
  intro rs
  induction rs with
  | nil => intro sched; exact ⟨0, rfl⟩
  | cons r rest ih =>
    intro sched
    unfold searchPhase
    cases hc : checkLimits w lim eg i with
    | some sr => exact ⟨1, rfl⟩
    | none =>
      obtain ⟨k, hk⟩ := ih (w.searchRewrite sched i eg r).2
      refine ⟨k + 1, ?_⟩
      show Event.searchRule r ::
        (searchPhase w lim i eg (w.searchRewrite sched i eg r).2 rest).2.2.2
        = _
      rw [hk]
      rfl

theorem searchPhase_complete (w : World σ τ μ) (lim : Limits) (i : Nat)
    (eg : σ) : ∀ (rs : List Nat) (sched : τ),
    (searchPhase w lim i eg sched rs).1 = none →
      (searchPhase w lim i eg sched rs).2.2.2 =
        rs.map Event.searchRule ∧
      (searchPhase w lim i eg sched rs).2.2.1.length = rs.length := by
  intro rs
  induction rs with
  | nil => intro sched _; exact ⟨rfl, rfl⟩
  | cons r rest ih =>
    intro sched h
    unfold searchPhase at h ⊢
    cases hc : checkLimits w lim eg i with
    | some sr =>
      rw [hc] at h
      cases h
    | none =>
      rw [hc] at h
      obtain ⟨h1, h2⟩ := ih (w.searchRewrite sched i eg r).2 h
      constructor
      · show Event.searchRule r :: _ = _
        rw [h1]
        rfl
      · show (_ :: _).length = rest.length + 1
        simp [h2]

theorem applyPhase_trace (w : World σ τ μ) (lim : Limits) (i : Nat) :
    ∀ (ps : List (Nat × μ)) (eg : σ) (sched : τ)
      (applied : List (Nat × Nat)),
      ∀ e ∈ (applyPhase w lim i ps eg sched applied).2.2.2.2,
        ∃ r, e = Event.applyRule r := by
  intro ps
  induction ps with
  | nil => intro eg sched applied e he; simp [applyPhase] at he
  | cons p rest ih =>
    intro eg sched applied e he
    obtain ⟨r, ms⟩ := p
    unfold applyPhase at he
    cases hc : checkLimits w lim (w.applyRewrite sched i eg r ms).2.1 i with
    | some sr =>
      rw [hc] at he
      have he2 : e ∈ [Event.applyRule r] := he
      have he3 : e = Event.applyRule r := by simpa using he2
      exact ⟨r, he3⟩
    | none =>
      rw [hc] at he
      have he2 : e ∈ Event.applyRule r ::
          (applyPhase w lim i rest (w.applyRewrite sched i eg r ms).2.1
            (w.applyRewrite sched i eg r ms).2.2
            (if 0 < (w.applyRewrite sched i eg r ms).1
             then bump applied r (w.applyRewrite sched i eg r ms).1
             else applied)).2.2.2.2 := he
      rcases List.mem_cons.mp he2 with h1 | h1
      · exact ⟨r, h1⟩
      · exact ih _ _ _ e h1

theorem index_lt_of_partition (tr pre suf : List Event)
    (htr : tr = pre ++ suf) (P Q : Event → Prop)
    (hpre : ∀ e ∈ pre, ¬ Q e) (hsuf : ∀ e ∈ suf, ¬ P e) :
    ∀ (i j : Nat) (hi : i < tr.length) (hj : j < tr.length),
      P (tr.get ⟨i, hi⟩) → Q (tr.get ⟨j, hj⟩) → i < j := by
  subst htr
  intro i j hi hj hP hQ
  have hiP : i < pre.length := by
    by_contra hge
    push_neg at hge
    have hmem : (pre ++ suf).get ⟨i, hi⟩ ∈ suf := by
      rw [List.get_eq_getElem, List.getElem_append_right hge]
      exact List.getElem_mem _
    exact hsuf _ hmem hP
  have hjQ : pre.length ≤ j := by
    by_contra hlt
    push_neg at hlt
    have hmem : (pre ++ suf).get ⟨j, hj⟩ ∈ pre := by
      rw [List.get_eq_getElem, List.getElem_append_left hlt]
      exact List.getElem_mem _
    exact hpre _ hmem hQ
  omega

/-- C5: in one run_one round the trace decomposes into hook events, then
search events (a prefix of the rules, all of them whenever anything is
later applied), then apply events, then exactly one rebuild followed by
the saturation check; in particular every search of the round precedes
every apply of the round. -/
theorem C5_phase_order (w : World σ τ μ) (lim : Limits)
    (hooks : List (σ → Except String σ)) (rules : List Nat)
    (st : RunnerSt σ τ) :
    ∃ hs ss as2,
      (runOne w lim hooks rules st).2.2 =
        hs ++ ss ++ as2 ++ [Event.rebuildCall, Event.satCheck] ∧
      (∀ e ∈ hs, ∃ i, e = Event.hookRun i) ∧
      (∃ k, ss = (rules.take k).map Event.searchRule) ∧
      (∀ e ∈ as2, ∃ r, e = Event.applyRule r) ∧
      (as2 ≠ [] → ss = rules.map Event.searchRule) ∧
      (runOne w lim hooks rules st).2.2.count Event.rebuildCall = 1 ∧
      (∀ (i j : Nat) (hi : i < (runOne w lim hooks rules st).2.2.length)
        (hj : j < (runOne w lim hooks rules st).2.2.length) (r1 r2 : Nat),
        (runOne w lim hooks rules st).2.2.get ⟨i, hi⟩ =
          Event.searchRule r2 →
        (runOne w lim hooks rules st).2.2.get ⟨j, hj⟩ =
          Event.applyRule r1 →
        i < j) := by
  refine ⟨(hookOut w lim hooks st).2.2,
    (searchOut w lim hooks rules st).2.2.2,
    (applyOut w lim hooks rules st).2.2.2.2, rfl, ?_, ?_, ?_, ?_, ?_, ?_⟩
  · intro e he
    unfold hookOut at he
    cases hc : checkLimits w lim st.egraph st.iters.length with
    | some sr =>
      rw [hc] at he
      simp at he
    | none =>
      rw [hc] at he
      exact runHooks_trace hooks 0 st.egraph e he
  · unfold searchOut
    cases hh : (hookOut w lim hooks st).1 with
    | some sr => exact ⟨0, rfl⟩
    | none => exact searchPhase_trace w lim st.iters.length _ rules st.sched
  · intro e he
    unfold applyOut at he
    cases hs : (searchOut w lim hooks rules st).1 with
    | some sr =>
      rw [hs] at he
      simp at he
    | none =>
      rw [hs] at he
      exact applyPhase_trace w lim st.iters.length _ _ _ _ e he
  · intro hne
    unfold applyOut at hne
    cases hs : (searchOut w lim hooks rules st).1 with
    | some sr =>
      rw [hs] at hne
      simp at hne
    | none =>
      unfold searchOut at hs ⊢
      cases hh : (hookOut w lim hooks st).1 with
      | some sr =>
        rw [hh] at hs
        cases hs
      | none =>
        rw [hh] at hs
        exact (searchPhase_complete w lim st.iters.length _ rules
          st.sched hs).1
  · have hhs : ∀ e ∈ (hookOut w lim hooks st).2.2,
        e ≠ Event.rebuildCall := by
      intro e he hcon
      obtain ⟨i, hi⟩ := (by
        unfold hookOut at he
        cases hc : checkLimits w lim st.egraph st.iters.length with
        | some sr => rw [hc] at he; simp at he
        | none => rw [hc] at he; exact runHooks_trace hooks 0 st.egraph e he :
        ∃ i, e = Event.hookRun i)
      rw [hi] at hcon
      cases hcon
    have hss : ∀ e ∈ (searchOut w lim hooks rules st).2.2.2,
        e ≠ Event.rebuildCall := by
      intro e he hcon
      have hk : ∃ k, (searchOut w lim hooks rules st).2.2.2 =
          (rules.take k).map Event.searchRule := by
        unfold searchOut
        cases hh : (hookOut w lim hooks st).1 with
        | some sr => exact ⟨0, rfl⟩
        | none =>
          exact searchPhase_trace w lim st.iters.length _ rules st.sched
      obtain ⟨k, hk2⟩ := hk
      rw [hk2] at he
      obtain ⟨r, -, hr⟩ := List.mem_map.mp he
      rw [← hr] at hcon
      cases hcon
    have has : ∀ e ∈ (applyOut w lim hooks rules st).2.2.2.2,
        e ≠ Event.rebuildCall := by
      intro e he hcon
      obtain ⟨r, hr⟩ := (by
        unfold applyOut at he
        cases hs : (searchOut w lim hooks rules st).1 with
        | some sr => rw [hs] at he; simp at he
        | none =>
          rw [hs] at he
          exact applyPhase_trace w lim st.iters.length _ _ _ _ e he :
        ∃ r, e = Event.applyRule r)
      rw [hr] at hcon
      cases hcon
    show ((hookOut w lim hooks st).2.2 ++
      (searchOut w lim hooks rules st).2.2.2 ++
      (applyOut w lim hooks rules st).2.2.2.2 ++
      [Event.rebuildCall, Event.satCheck]).count Event.rebuildCall = 1
    rw [List.count_append, List.count_append, List.count_append]
    rw [List.count_eq_zero.mpr (fun hmem => hhs _ hmem rfl),
        List.count_eq_zero.mpr (fun hmem => hss _ hmem rfl),
        List.count_eq_zero.mpr (fun hmem => has _ hmem rfl)]
    rfl
  · intro i j hi hj r1 r2 hsearch happly
    have hpre : ∀ e ∈ (hookOut w lim hooks st).2.2 ++
        (searchOut w lim hooks rules st).2.2.2,
        ¬ (e = Event.applyRule r1) := by
      intro e he hcon
      rcases List.mem_append.mp he with h1 | h1
      · unfold hookOut at h1
        cases hc : checkLimits w lim st.egraph st.iters.length with
        | some sr => rw [hc] at h1; simp at h1
        | none =>
          rw [hc] at h1
          obtain ⟨ii, hii⟩ := runHooks_trace hooks 0 st.egraph e h1
          rw [hii] at hcon
          cases hcon
      · have hk : ∃ k, (searchOut w lim hooks rules st).2.2.2 =
            (rules.take k).map Event.searchRule := by
          unfold searchOut
          cases hh : (hookOut w lim hooks st).1 with
          | some sr => exact ⟨0, rfl⟩
          | none =>
            exact searchPhase_trace w lim st.iters.length _ rules st.sched
        obtain ⟨k, hk2⟩ := hk
        rw [hk2] at h1
        obtain ⟨r, -, hr⟩ := List.mem_map.mp h1
        rw [← hr] at hcon
        cases hcon
    have hsuf : ∀ e ∈ (applyOut w lim hooks rules st).2.2.2.2 ++
        [Event.rebuildCall, Event.satCheck],
        ¬ (e = Event.searchRule r2) := by
      intro e he hcon
      rcases List.mem_append.mp he with h1 | h1
      · obtain ⟨r, hr⟩ := (by
          unfold applyOut at h1
          cases hs : (searchOut w lim hooks rules st).1 with
          | some sr => rw [hs] at h1; simp at h1
          | none =>
            rw [hs] at h1
            exact applyPhase_trace w lim st.iters.length _ _ _ _ e h1 :
          ∃ r, e = Event.applyRule r)
        rw [hr] at hcon
        cases hcon
      · rcases List.mem_cons.mp h1 with h2 | h2
        · rw [h2] at hcon; cases hcon
        · have h3 : e = Event.satCheck := by simpa using h2
          rw [h3] at hcon
          cases hcon
    exact index_lt_of_partition (runOne w lim hooks rules st).2.2
      ((hookOut w lim hooks st).2.2 ++
        (searchOut w lim hooks rules st).2.2.2)
      ((applyOut w lim hooks rules st).2.2.2.2 ++
        [Event.rebuildCall, Event.satCheck])
      (by simp [runOne, runOnePhases, List.append_assoc])
      (fun e => e = Event.searchRule r2) (fun e => e = Event.applyRule r1)
      (fun e he hcon => hpre e he hcon) (fun e he hcon => hsuf e he hcon)
      i j hi hj hsearch happly

theorem runOne_state_len (w : World σ τ μ) (lim : Limits)
    (hooks : List (σ → Except String σ)) (rules : List Nat)
    (st : RunnerSt σ τ) :
    (runOne w lim hooks rules st).2.1.iters.length =
      st.iters.length + 1 := by
  show (runOneState w lim hooks rules st).iters.length = _
  unfold runOneState
  simp

theorem runLoop_stops (w : World σ τ μ) (lim : Limits)
    (hooks : List (σ → Except String σ)) (rules : List Nat) :
    ∀ (fuel : Nat) (st : RunnerSt σ τ), 1 ≤ fuel →
      lim.iterLimit ≤ st.iters.length + fuel →
      ((runLoop w lim hooks rules fuel st).2).isSome = true := by
  intro fuel
  induction fuel with
  | zero => intro st h1 h2; exact absurd h1 (by omega)
  | succ fuel ih =>
    intro st h1 h2
    unfold runLoop
    cases hsr : (runOne w lim hooks rules st).1.stopReason with
    | some sr => rfl
    | none =>
      cases hcl : checkLimits w lim (runOne w lim hooks rules st).2.1.egraph
          (runOne w lim hooks rules st).2.1.iters.length with
      | some sr => rfl
      | none =>
        have hlen := runOne_state_len w lim hooks rules st
        have h3 := (checkLimits_none w lim _ _ hcl).2.2
        rw [hlen] at h3
        exact ih (runOne w lim hooks rules st).2.1 (by omega)
          (by rw [hlen]; omega)

theorem runLoop_len (w : World σ τ μ) (lim : Limits)
    (hooks : List (σ → Except String σ)) (rules : List Nat) :
    ∀ (fuel : Nat) (st : RunnerSt σ τ),
      ((runLoop w lim hooks rules fuel st).1).iters.length ≤
        max lim.iterLimit (st.iters.length + 1) := by
  intro fuel
  induction fuel with
  | zero =>
    intro st
    show st.iters.length ≤ _
    exact le_max_of_le_right (by omega)
  | succ fuel ih =>
    intro st
    unfold runLoop
    cases hsr : (runOne w lim hooks rules st).1.stopReason with
    | some sr =>
      show (runOne w lim hooks rules st).2.1.iters.length ≤ _
      rw [runOne_state_len]
      exact le_max_right _ _
    | none =>
      cases hcl : checkLimits w lim (runOne w lim hooks rules st).2.1.egraph
          (runOne w lim hooks rules st).2.1.iters.length with
      | some sr =>
        show (runOne w lim hooks rules st).2.1.iters.length ≤ _
        rw [runOne_state_len]
        exact le_max_right _ _
      | none =>
        have h3 := (checkLimits_none w lim _ _ hcl).2.2
        rw [runOne_state_len] at h3
        have h4 := ih (runOne w lim hooks rules st).2.1
        rw [runOne_state_len] at h4
        have h5 : max lim.iterLimit (st.iters.length + 1 + 1) =
            lim.iterLimit := Nat.max_eq_left (by omega)
        rw [h5] at h4
        exact le_trans h4 (le_max_left _ _)

theorem runLoop_mono (w : World σ τ μ) (lim : Limits)
    (hooks : List (σ → Except String σ)) (rules : List Nat) :
    ∀ (fuel : Nat) (st : RunnerSt σ τ),
      st.iters.length ≤
        ((runLoop w lim hooks rules fuel st).1).iters.length := by
  intro fuel
  induction fuel with
  | zero => intro st; exact le_refl _
  | succ fuel ih =>
    intro st
    unfold runLoop
    cases hsr : (runOne w lim hooks rules st).1.stopReason with
    | some sr =>
      show _ ≤ (runOne w lim hooks rules st).2.1.iters.length
      rw [runOne_state_len]
      omega
    | none =>
      cases hcl : checkLimits w lim (runOne w lim hooks rules st).2.1.egraph
          (runOne w lim hooks rules st).2.1.iters.length with
      | some sr =>
        show _ ≤ (runOne w lim hooks rules st).2.1.iters.length
        rw [runOne_state_len]
        omega
      | none =>
        have h4 := ih (runOne w lim hooks rules st).2.1
        rw [runOne_state_len] at h4
        show st.iters.length ≤ (runLoop w lim hooks rules fuel
          (runOne w lim hooks rules st).2.1).1.iters.length
        omega

theorem runLoop_grow (w : World σ τ μ) (lim : Limits)
    (hooks : List (σ → Except String σ)) (rules : List Nat) :
    ∀ (fuel : Nat) (st : RunnerSt σ τ), 1 ≤ fuel →
      st.iters.length <
        ((runLoop w lim hooks rules fuel st).1).iters.length := by
  intro fuel
  cases fuel with
  | zero => intro st h; exact absurd h (by omega)
  | succ fuel =>
    intro st _
    unfold runLoop
    cases hsr : (runOne w lim hooks rules st).1.stopReason with
    | some sr =>
      show _ < (runOne w lim hooks rules st).2.1.iters.length
      rw [runOne_state_len]
      omega
    | none =>
      cases hcl : checkLimits w lim (runOne w lim hooks rules st).2.1.egraph
          (runOne w lim hooks rules st).2.1.iters.length with
      | some sr =>
        show _ < (runOne w lim hooks rules st).2.1.iters.length
        rw [runOne_state_len]
        omega
      | none =>
        have h4 := runLoop_mono w lim hooks rules fuel
          (runOne w lim hooks rules st).2.1
        rw [runOne_state_len] at h4
        show st.iters.length < (runLoop w lim hooks rules fuel
          (runOne w lim hooks rules st).2.1).1.iters.length
        omega

theorem runLoop_step_stop (w : World σ τ μ) (lim : Limits)
    (hooks : List (σ → Except String σ)) (rules : List Nat) (fuel : Nat)
    (st : RunnerSt σ τ) (sr : StopReason)
    (hsr : (runOne w lim hooks rules st).1.stopReason = some sr) :
    runLoop w lim hooks rules (fuel + 1) st =
      ((runOne w lim hooks rules st).2.1, some sr) := by
  unfold runLoop
  rw [hsr]

/-- C10 (amended): Runner::run always stops with a recorded stop reason
after at least one and at most max(iter_limit, 1) new iterations; with an
iteration limit of 0 and the time and node budgets not already exhausted
after the initial rebuild, exactly one iteration record is produced, its
stop reason is IterationLimit 0, and no hook runs and no rule is searched
or applied in that round. -/
theorem C10_run_terminates (w : World σ τ μ) (lim : Limits)
    (hooks : List (σ → Except String σ)) (rules : List Nat)
    (st0 : RunnerSt σ τ) :
    (((run w lim hooks rules st0).2).isSome = true ∧
     st0.iters.length < (run w lim hooks rules st0).1.iters.length ∧
     (run w lim hooks rules st0).1.iters.length ≤
       max lim.iterLimit (st0.iters.length + 1)) ∧
    (lim.iterLimit = 0 → st0.iters = [] →
      w.elapsed (w.rebuild st0.egraph).1 ≤ lim.timeLimit →
      w.totalSize (w.rebuild st0.egraph).1 ≤ lim.nodeLimit →
      (run w lim hooks rules st0).2 = some (.iterationLimit 0) ∧
      (run w lim hooks rules st0).1.iters.length = 1 ∧
      (runOne w lim hooks rules
        { st0 with egraph := (w.rebuild st0.egraph).1 }).2.2 =
        [Event.rebuildCall, Event.satCheck]) := by
  constructor
  · refine ⟨?_, ?_, ?_⟩
    · exact runLoop_stops w lim hooks rules (lim.iterLimit + 1)
        { st0 with egraph := (w.rebuild st0.egraph).1 } (by omega) (by omega)
    · exact runLoop_grow w lim hooks rules (lim.iterLimit + 1)
        { st0 with egraph := (w.rebuild st0.egraph).1 } (by omega)
    · exact runLoop_len w lim hooks rules (lim.iterLimit + 1)
        { st0 with egraph := (w.rebuild st0.egraph).1 }
  · intro hiter0 hempty htime hnode
    have hcheck : checkLimits w lim (w.rebuild st0.egraph).1 0 =
        some (.iterationLimit 0) := by
      unfold checkLimits
      rw [if_neg (show ¬ lim.timeLimit <
            w.elapsed (w.rebuild st0.egraph).1 by omega),
          if_neg (show ¬ lim.nodeLimit <
            w.totalSize (w.rebuild st0.egraph).1 by omega),
          if_pos (show lim.iterLimit ≤ 0 by omega)]
    have hc2 : checkLimits w lim
        ({ st0 with egraph := (w.rebuild st0.egraph).1 } :
          RunnerSt σ τ).egraph
        ({ st0 with egraph := (w.rebuild st0.egraph).1 } :
          RunnerSt σ τ).iters.length = some (.iterationLimit 0) := by
      show checkLimits w lim (w.rebuild st0.egraph).1 st0.iters.length = _
      rw [hempty]
      exact hcheck
    have hhook : hookOut w lim hooks
        { st0 with egraph := (w.rebuild st0.egraph).1 } =
        (some (.iterationLimit 0), (w.rebuild st0.egraph).1, []) := by
      unfold hookOut
      rw [hc2]
    have hsearch : searchOut w lim hooks rules
        { st0 with egraph := (w.rebuild st0.egraph).1 } =
        (some (.iterationLimit 0), st0.sched, [], []) := by
      unfold searchOut
      rw [hhook]
    have happly : applyOut w lim hooks rules
        { st0 with egraph := (w.rebuild st0.egraph).1 } =
        (some (.iterationLimit 0), (w.rebuild st0.egraph).1, st0.sched, [],
         []) := by
      unfold applyOut
      rw [hsearch, hhook]
    have hstop : (runOne w lim hooks rules
        { st0 with egraph := (w.rebuild st0.egraph).1 }).1.stopReason =
        some (.iterationLimit 0) := by
      show (match (runOnePhases w lim hooks rules
          { st0 with egraph := (w.rebuild st0.egraph).1 }).resultPre with
        | some sr => some sr
        | none =>
          if canBeSaturated w
              ({ st0 with egraph := (w.rebuild st0.egraph).1 } :
                RunnerSt σ τ).iters.length
              (runOnePhases w lim hooks rules
                { st0 with egraph := (w.rebuild st0.egraph).1 })
          then some StopReason.saturated else none) = _
      have hpre : (runOnePhases w lim hooks rules
          { st0 with egraph := (w.rebuild st0.egraph).1 }).resultPre =
          some (.iterationLimit 0) := by
        show (applyOut w lim hooks rules
          { st0 with egraph := (w.rebuild st0.egraph).1 }).1 = _
        rw [happly]
      rw [hpre]
    have hrun : run w lim hooks rules st0 =
        ((runOne w lim hooks rules
          { st0 with egraph := (w.rebuild st0.egraph).1 }).2.1,
         some (.iterationLimit 0)) := by
      unfold run
      rw [hiter0]
      exact runLoop_step_stop w lim hooks rules 0 _ _ hstop
    refine ⟨by rw [hrun], ?_, ?_⟩
    · rw [hrun]
      show (runOne w lim hooks rules
        { st0 with egraph := (w.rebuild st0.egraph).1 }).2.1.iters.length = 1
      rw [runOne_state_len]
      show st0.iters.length + 1 = 1
      rw [hempty]
      rfl
    · show (hookOut w lim hooks
        { st0 with egraph := (w.rebuild st0.egraph).1 }).2.2 ++
        (searchOut w lim hooks rules
          { st0 with egraph := (w.rebuild st0.egraph).1 }).2.2.2 ++
        (applyOut w lim hooks rules
          { st0 with egraph := (w.rebuild st0.egraph).1 }).2.2.2.2 ++
        [Event.rebuildCall, Event.satCheck] = _
      rw [hhook, hsearch, happly]
      rfl

/-- A minimal concrete world for the runner: the egraph state is its node
count, the clock never advances, rules never match or apply. -/
def constWorld : World Nat Unit Unit :=
  { totalSize := fun s => s
    numClasses := fun _ => 0
    elapsed := fun _ => 0
    rebuild := fun s => (s, 0)
    canStop := fun t _ => (true, t)
    searchRewrite := fun t _ _ _ => ((), t)
    applyRewrite := fun t _ s _ _ => (0, s, t) }

/-- C10 counterexample: with an iteration limit of 0 but a node limit of 0
and a one-node egraph, the single recorded iteration stops with NodeLimit,
not the iteration limit, refuting the unconditional claim. -/
theorem C10_counterexample :
    (run constWorld ⟨0, 0, 5⟩ [] [] ⟨1, (), []⟩).2 =
      some (.nodeLimit 1) ∧
    ¬ (run constWorld ⟨0, 0, 5⟩ [] [] ⟨1, (), []⟩).2 =
      some (.iterationLimit 0) := by
  constructor
  · rfl
  · intro h
    have h2 : (some (StopReason.nodeLimit 1) : Option StopReason) =
        some (.iterationLimit 0) := by
      rw [← h]
      rfl
    cases h2

/-- C10 witness: the amended theorem applied to the constant world with
iteration limit 0 and generous node and time budgets. -/
theorem C10_witness :
    (run constWorld ⟨0, 10, 5⟩ [] [] ⟨1, (), []⟩).2 =
      some (.iterationLimit 0) ∧
    (run constWorld ⟨0, 10, 5⟩ [] [] ⟨1, (), []⟩).1.iters.length = 1 := by
  have h := (C10_run_terminates constWorld ⟨0, 10, 5⟩ [] [] ⟨1, (), []⟩).2
    rfl rfl (by decide) (by decide)
  exact ⟨h.1, h.2.1⟩

end CalcuRs
